import Mathlib

/-!
Tukey fences (`github.com/mndrix/tukey`).

A shallow embedding of `tukey.go` and a verification of its specification.

Modelling conventions.

* The source is read twice. `Quantile` and `Outliers` read its arithmetic exactly,
  over the rationals `ℚ` (no rounding, no NaN, no infinities, `int` as `ℤ`); the
  theorems about them are statements over exact arithmetic. `Quantile64` and
  `Outliers64` read the same lines in IEEE 754 binary64 (`Float64`), rounding
  after every operation as the Go compiler does on amd64 (the Go specification
  also allows a fused multiply-add, which is not modelled).
* A Go run-time panic is an `Except.error`: the explicit `panic(...)` of
  `Quantile` is `Panic.emptyArgument`, the run-time "index out of range" panic of
  a slice lookup is `Panic.indexOutOfRange`.
* `sort.Float64s` (Go standard library) sorts the slice ascending, in place, NaN
  first. Its result is modelled by insertion sort; over a linear order every
  sorting algorithm yields the same list (`sortFloat64s_eq_of_sorted_perm`).
* `Outliers` mutates its argument, so its model returns the final content of the
  caller's slice next to the (possibly panicking) result. In the float64 reading
  every step, the calls of `Quantile64` included, maps the content of the slice to
  its content afterwards (`SliceM`).
-/

namespace Tukey

/-! ## Data model -/

/-- The two ways a call can panic. -/
inductive Panic where
  /-- The call `panic("Quantile() second argument may not be empty")`. -/
  | emptyArgument : Panic
  /-- Go run-time panic of `xs[index]` on a slice of the given length. -/
  | indexOutOfRange (index : ℤ) (length : ℕ) : Panic
  deriving DecidableEq, Repr

instance instDecidableEqExcept {ε α : Type} [DecidableEq ε] [DecidableEq α] :
    DecidableEq (Except ε α)
  | .ok a, .ok b =>
    if h : a = b then isTrue (by rw [h]) else isFalse (fun h1 => h (Except.ok.inj h1))
  | .error a, .error b =>
    if h : a = b then isTrue (by rw [h]) else isFalse (fun h1 => h (Except.error.inj h1))
  | .ok _, .error _ => isFalse (fun h => Except.noConfusion h)
  | .error _, .ok _ => isFalse (fun h => Except.noConfusion h)

/-- Go `math.Floor`: the greatest integer value not above `x`, still a float. -/
def floatFloor (x : ℚ) : ℚ := ((⌊x⌋ : ℤ) : ℚ)

/-- Go conversion `int(x)` of a float: the fractional part is discarded
(truncation towards zero). -/
def floatToInt (x : ℚ) : ℤ := Int.tdiv x.num (x.den : ℤ)

/-- Go slice lookup `xs[i]` with an `int` index: panics unless `0 ≤ i < len(xs)`. -/
def index (xs : List ℚ) (i : ℤ) : Except Panic ℚ :=
  if i < 0 then .error (.indexOutOfRange i xs.length)
  else
    match xs[i.toNat]? with
    | some v => .ok v
    | none => .error (.indexOutOfRange i xs.length)

/-! ## The two entry points -/

/-- Go `Quantile(p, xs)` of `tukey.go`, read over exact arithmetic. -/
def Quantile (p : ℚ) (xs : List ℚ) : Except Panic ℚ :=
  if xs.length = 0 then .error .emptyArgument
  else if xs.length = 1 then index xs 0
  else do
    let n : ℚ := (xs.length : ℚ)
    -- parameters for "Definition 8"
    let m : ℚ := (p + 1) / 3
    -- equations based on the parameters
    let j : ℚ := floatFloor (p * n + m)
    let g : ℚ := p * n + m - j
    let gamma : ℚ := g
    -- j is 1-based but xs is 0-based, so lookups subtract 1
    let a ← index xs (floatToInt j - 1)
    let b ← index xs (floatToInt j)
    let quantile : ℚ := (1 - gamma) * a + gamma * b
    return quantile

/-- Go `sort.Float64s(xs)`: the slice sorted in increasing order. -/
def sortFloat64s (xs : List ℚ) : List ℚ := xs.insertionSort (· ≤ ·)

/-- The `for _, x := range xs` loop of `Outliers`, appending to `outliers`. -/
def scanOutliers (lowFence highFence : ℚ) (xs : List ℚ) : List ℚ :=
  xs.foldl (fun outliers x => if x < lowFence ∨ x > highFence then outliers ++ [x] else outliers) []

/-- Go `Outliers(m, xs)` of `tukey.go`, read over exact arithmetic. The first component is the content of the
caller's slice after the call (it is sorted in place before anything can panic),
the second one is the returned triple `(outliers, lowFence, highFence)` or the
panic. -/
def Outliers (m : ℚ) (xs : List ℚ) : List ℚ × Except Panic (List ℚ × ℚ × ℚ) :=
  let xs := sortFloat64s xs
  (xs, do
    let lowerQuartile ← Quantile (1 / 4) xs
    let upperQuartile ← Quantile (3 / 4) xs
    let iqr := upperQuartile - lowerQuartile
    let lowFence := lowerQuartile - m * iqr
    let highFence := upperQuartile + m * iqr
    let outliers := scanOutliers lowFence highFence xs
    return (outliers, lowFence, highFence))

/-- Go `fmt.Sprintf("%.2f", x)` as used by `TestTukey`, given as the number of
hundredths that is printed: `x` rounded to the nearest hundredth, ties to even. -/
def sprintf2 (x : ℚ) : ℤ :=
  let y : ℚ := 100 * x
  let f : ℤ := ⌊y⌋
  if y - f < 1 / 2 then f
  else if y - f > 1 / 2 then f + 1
  else if f % 2 = 0 then f else f + 1

/-! ## The float64 reading

`Quantile` and `Outliers` above read the arithmetic of `tukey.go` exactly. The
definitions of this section read the same source lines in IEEE 754 binary64:
every arithmetic operation is rounded to the nearest representable value (ties to
even), overflow gives an infinity, and NaN propagates. They also thread the
content of the caller's slice through every step. -/

/-- Go `float64`: NaN, the two infinities, or a finite value, given by the rational
it denotes. The two zeros are identified (the source never divides by a zero and
never inspects a sign bit). -/
inductive Float64 where
  /-- Not a number. -/
  | nan : Float64
  /-- Infinity, negative when the flag is set. -/
  | inf (negative : Bool) : Float64
  /-- A finite value. -/
  | fin (q : ℚ) : Float64
  deriving DecidableEq, Repr

/-- The power `2 ^ e` for an integer exponent. -/
def pow2 (e : ℤ) : ℚ :=
  if 0 ≤ e then ((2 ^ e.toNat : ℕ) : ℚ) else 1 / ((2 ^ (-e).toNat : ℕ) : ℚ)

/-- Binary logarithm by repeated halving, with a bound on the number of steps. -/
def log2Aux : ℕ → ℕ → ℕ
  | 0, _ => 0
  | fuel + 1, n => if n < 2 then 0 else log2Aux fuel (n / 2) + 1

/-- The binary logarithm `⌊log₂ n⌋` of a positive natural number. -/
def log2 (n : ℕ) : ℕ := log2Aux n n

/-- The exponent `e` with `2 ^ e ≤ |a| < 2 ^ (e + 1)`, for `a ≠ 0`. -/
def binade (a : ℚ) : ℤ :=
  let e0 : ℤ := (log2 a.num.natAbs : ℤ) - (log2 a.den : ℤ)
  if pow2 e0 ≤ (if a < 0 then -a else a) then e0 else e0 - 1

/-- Rounding to the nearest integer, ties to the even one. -/
def roundHalfEven (x : ℚ) : ℤ :=
  let f : ℤ := ⌊x⌋
  if x - f < 1 / 2 then f
  else if x - f > 1 / 2 then f + 1
  else if f % 2 = 0 then f else f + 1

namespace Float64

/-- IEEE 754 binary64 rounding of an exact result: 53 significant bits, exponent
at least `-1022` (gradual underflow), ties to even, overflow to an infinity. -/
def ofRat (q : ℚ) : Float64 :=
  if q = 0 then .fin 0
  else
    let t : ℤ := max (binade q) (-1022) - 52
    let r : ℚ := (roundHalfEven (q / pow2 t) : ℚ) * pow2 t
    if pow2 1024 ≤ r then .inf false
    else if r ≤ -pow2 1024 then .inf true
    else .fin r

/-- Go unary `-x`. -/
def neg : Float64 → Float64
  | .nan => .nan
  | .inf s => .inf (!s)
  | .fin a => .fin (-a)

/-- Go `x + y` on `float64`. -/
def add : Float64 → Float64 → Float64
  | .nan, _ => .nan
  | _, .nan => .nan
  | .inf s, .inf t => if s = t then .inf s else .nan
  | .inf s, .fin _ => .inf s
  | .fin _, .inf t => .inf t
  | .fin a, .fin b => ofRat (a + b)

/-- Go `x - y` on `float64`. -/
def sub (x y : Float64) : Float64 := add x (neg y)

/-- Go `x * y` on `float64`. -/
def mul : Float64 → Float64 → Float64
  | .nan, _ => .nan
  | _, .nan => .nan
  | .inf s, .inf t => .inf (xor s t)
  | .inf s, .fin b => if b = 0 then .nan else .inf (xor s (decide (b < 0)))
  | .fin a, .inf t => if a = 0 then .nan else .inf (xor (decide (a < 0)) t)
  | .fin a, .fin b => ofRat (a * b)

/-- Go `x / y` on `float64` (a zero divisor is read as `+0`; the source only
divides by the constant `3`). -/
def div : Float64 → Float64 → Float64
  | .nan, _ => .nan
  | _, .nan => .nan
  | .inf _, .inf _ => .nan
  | .inf s, .fin b => .inf (xor s (decide (b < 0)))
  | .fin _, .inf _ => .fin 0
  | .fin a, .fin b =>
    if b = 0 then (if a = 0 then .nan else .inf (decide (a < 0))) else ofRat (a / b)

/-- Go `x < y` on `float64`: false as soon as one side is NaN. -/
def lt : Float64 → Float64 → Bool
  | .nan, _ => false
  | _, .nan => false
  | .inf s, .inf t => s && !t
  | .inf s, .fin _ => s
  | .fin _, .inf t => !t
  | .fin a, .fin b => decide (a < b)

/-- Go `x <= y` on `float64`: false as soon as one side is NaN. -/
def le : Float64 → Float64 → Bool
  | .nan, _ => false
  | _, .nan => false
  | .inf s, .inf t => s || !t
  | .inf s, .fin _ => s
  | .fin _, .inf t => !t
  | .fin a, .fin b => decide (a ≤ b)

/-- Go `math.Floor`. -/
def floor : Float64 → Float64
  | .nan => .nan
  | .inf s => .inf s
  | .fin a => .fin ((⌊a⌋ : ℤ) : ℚ)

/-- Go conversion `int(x)` to a 64-bit `int`: truncation towards zero. For NaN,
an infinity or a value outside the `int` range the Go specification leaves the
result to the implementation; the value of the amd64 toolchain is taken. -/
def toInt : Float64 → ℤ
  | .fin a =>
    let i : ℤ := Int.tdiv a.num (a.den : ℤ)
    if -(2 : ℤ) ^ 63 ≤ i ∧ i < (2 : ℤ) ^ 63 then i else -(2 : ℤ) ^ 63
  | _ => -(2 : ℤ) ^ 63

/-- Go conversion `float64(n)` of a length. -/
def ofNat (n : ℕ) : Float64 := ofRat (n : ℚ)

/-- Go `math.IsNaN`. -/
def isNaN : Float64 → Bool
  | .nan => true
  | _ => false

/-- The order of `sort.Float64s`: `x < y || (isNaN(x) && !isNaN(y))`, which puts
NaN first. -/
def sortLess (x y : Float64) : Bool := lt x y || (isNaN x && !isNaN y)

instance : Add Float64 := ⟨Float64.add⟩

instance : Sub Float64 := ⟨Float64.sub⟩

instance : Mul Float64 := ⟨Float64.mul⟩

instance : Div Float64 := ⟨Float64.div⟩

end Float64

/-- Go slice lookup `xs[i]` on a `[]float64`: panics unless `0 ≤ i < len(xs)`. -/
def index64 (xs : List Float64) (i : ℤ) : Except Panic Float64 :=
  if i < 0 then .error (.indexOutOfRange i xs.length)
  else
    match xs[i.toNat]? with
    | some v => .ok v
    | none => .error (.indexOutOfRange i xs.length)

/-- A Go computation working on the caller's slice: from the content of the slice
to its content afterwards, together with the value or the panic. -/
def SliceM (α : Type) : Type := List Float64 → List Float64 × Except Panic α

namespace SliceM

/-- Returning a value leaves the slice alone. -/
def pure {α : Type} (a : α) : SliceM α := fun h => (h, .ok a)

/-- Sequencing: a panic stops the computation and keeps the slice as it is then. -/
def bind {α β : Type} (x : SliceM α) (f : α → SliceM β) : SliceM β := fun h =>
  match x h with
  | (h1, .ok a) => f a h1
  | (h1, .error e) => (h1, .error e)

instance : Monad SliceM where
  pure := SliceM.pure
  bind := SliceM.bind

/-- Go `panic(...)`. -/
def panic {α : Type} (e : Panic) : SliceM α := fun h => (h, .error e)

/-- Go `len(xs)`. -/
def len : SliceM ℕ := fun h => (h, .ok h.length)

/-- Go read `xs[i]`. -/
def load (i : ℤ) : SliceM Float64 := fun h => (h, index64 h i)

/-- Go `range xs`: the values the loop is going to see. -/
def range : SliceM (List Float64) := fun h => (h, .ok h)

/-- Go `sort.Float64s(xs)`: sorts the slice in place, in the order `sortLess`. -/
def sort : SliceM Unit :=
  fun h => (h.insertionSort (fun a b => Float64.sortLess b a = false), .ok ())

end SliceM

/-- Go `Quantile(p, xs)` of `tukey.go` in float64 arithmetic, on the slice `xs`
held by the caller. -/
def Quantile64 (p : Float64) : SliceM Float64 := do
  let len ← SliceM.len
  if len = 0 then SliceM.panic .emptyArgument
  else if len = 1 then SliceM.load 0
  else
    let n : Float64 := Float64.ofNat len
    -- parameters for "Definition 8"
    let m : Float64 := (p + .fin 1) / .fin 3
    -- equations based on the parameters
    let j : Float64 := Float64.floor (p * n + m)
    let g : Float64 := p * n + m - j
    let gamma : Float64 := g
    -- j is 1-based but xs is 0-based, so lookups subtract 1
    let a ← SliceM.load (Float64.toInt j - 1)
    let b ← SliceM.load (Float64.toInt j)
    let quantile : Float64 := (.fin 1 - gamma) * a + gamma * b
    return quantile

/-- The `for _, x := range xs` loop of `Outliers` in float64 comparisons. -/
def scanOutliers64 (lowFence highFence : Float64) (xs : List Float64) : List Float64 :=
  xs.foldl (fun outliers x =>
    if Float64.lt x lowFence || Float64.lt highFence x then outliers ++ [x] else outliers) []

/-- Go `Outliers(m, xs)` of `tukey.go` in float64 arithmetic, on the slice `xs`
held by the caller. -/
def Outliers64 (m : Float64) : SliceM (List Float64 × Float64 × Float64) := do
  SliceM.sort
  let lowerQuartile ← Quantile64 (.fin (1 / 4))
  let upperQuartile ← Quantile64 (.fin (3 / 4))
  let iqr := upperQuartile - lowerQuartile
  let lowFence := lowerQuartile - m * iqr
  let highFence := upperQuartile + m * iqr
  let xs ← SliceM.range
  let outliers := scanOutliers64 lowFence highFence xs
  return (outliers, lowFence, highFence)

/-! ## Auxiliary facts -/

theorem floatToInt_floatFloor (x : ℚ) : floatToInt (floatFloor x) = ⌊x⌋ := by
  simp [floatToInt, floatFloor]

theorem index_eq_ok_iff (xs : List ℚ) (i : ℤ) (v : ℚ) :
    index xs i = .ok v ↔ 0 ≤ i ∧ xs[i.toNat]? = some v := by
  unfold index
  by_cases hi : i < 0
  · simp [hi]
  · simp only [hi, if_false]
    cases hx : xs[i.toNat]? <;> simp [not_lt.mp hi]

theorem index_ok_of_lt (xs : List ℚ) (i : ℤ) (h0 : 0 ≤ i) (h1 : i < xs.length) :
    ∃ v, xs[i.toNat]? = some v ∧ index xs i = .ok v := by
  have hlt : i.toNat < xs.length := by omega
  refine ⟨xs[i.toNat], List.getElem?_eq_getElem hlt, ?_⟩
  rw [index_eq_ok_iff]
  exact ⟨h0, List.getElem?_eq_getElem hlt⟩

theorem sortFloat64s_sorted (xs : List ℚ) : (sortFloat64s xs).Sorted (· ≤ ·) :=
  List.sorted_insertionSort _ xs

theorem sortFloat64s_perm (xs : List ℚ) : (sortFloat64s xs).Perm xs :=
  List.perm_insertionSort _ xs

/-- The ascending sort of a list is unique, so `sortFloat64s` agrees with every
correct sorting routine. -/
theorem sortFloat64s_eq_of_sorted_perm (xs s : List ℚ) (hs : s.Sorted (· ≤ ·))
    (hp : s.Perm xs) : sortFloat64s xs = s :=
  List.eq_of_perm_of_sorted ((sortFloat64s_perm xs).trans hp.symm)
    (sortFloat64s_sorted xs) hs

theorem foldl_append_filter (lo hi : ℚ) (xs acc : List ℚ) :
    xs.foldl (fun outliers x => if x < lo ∨ x > hi then outliers ++ [x] else outliers) acc
      = acc ++ xs.filter (fun x => decide (x < lo ∨ x > hi)) := by
  induction xs generalizing acc with
  | nil => simp
  | cons x xs ih =>
    rw [List.foldl_cons, ih]
    by_cases hx : x < lo ∨ x > hi
    · simp [hx, List.filter_cons]
    · simp [hx, List.filter_cons]

theorem scanOutliers_eq_filter (lo hi : ℚ) (xs : List ℚ) :
    scanOutliers lo hi xs = xs.filter (fun x => decide (x < lo ∨ x > hi)) := by
  simp [scanOutliers, foldl_append_filter]

/-- Complete description of a returning call of `Outliers`. -/
theorem Outliers_ok_iff (m : ℚ) (xs o : List ℚ) (lo hi : ℚ) :
    (Outliers m xs).2 = .ok (o, lo, hi) ↔
      ∃ q1 q3, Quantile (1 / 4) (sortFloat64s xs) = .ok q1 ∧
        Quantile (3 / 4) (sortFloat64s xs) = .ok q3 ∧
        lo = q1 - m * (q3 - q1) ∧ hi = q3 + m * (q3 - q1) ∧
        o = scanOutliers lo hi (sortFloat64s xs) := by
  unfold Outliers
  simp only [bind, Except.bind, pure, Except.pure]
  cases h1 : Quantile (1 / 4) (sortFloat64s xs) with
  | error e => simp
  | ok q1 =>
    cases h3 : Quantile (3 / 4) (sortFloat64s xs) with
    | error e => simp
    | ok q3 =>
      simp only [Except.ok.injEq, Prod.mk.injEq, exists_and_left, exists_eq_left']
      constructor
      · rintro ⟨rfl, rfl, rfl⟩
        exact ⟨rfl, rfl, rfl⟩
      · rintro ⟨rfl, rfl, rfl⟩
        exact ⟨rfl, rfl, rfl⟩

/-- The general branch of `Quantile`, for a sample with at least two values whose
two lookups are in range. -/
theorem Quantile_general (p : ℚ) (xs : List ℚ) (hn : 2 ≤ xs.length)
    (h1 : 1 ≤ ⌊p * (xs.length : ℚ) + (p + 1) / 3⌋)
    (h2 : ⌊p * (xs.length : ℚ) + (p + 1) / 3⌋ < (xs.length : ℤ)) :
    ∃ a b, xs[(⌊p * (xs.length : ℚ) + (p + 1) / 3⌋ - 1).toNat]? = some a ∧
      xs[(⌊p * (xs.length : ℚ) + (p + 1) / 3⌋).toNat]? = some b ∧
      Quantile p xs = .ok
        ((1 - (p * (xs.length : ℚ) + (p + 1) / 3 - (⌊p * (xs.length : ℚ) + (p + 1) / 3⌋ : ℚ))) * a
          + (p * (xs.length : ℚ) + (p + 1) / 3 - (⌊p * (xs.length : ℚ) + (p + 1) / 3⌋ : ℚ)) * b) := by
  obtain ⟨a, ha, ha1⟩ := index_ok_of_lt xs (⌊p * (xs.length : ℚ) + (p + 1) / 3⌋ - 1)
    (by omega) (by omega)
  obtain ⟨b, hb, hb1⟩ := index_ok_of_lt xs ⌊p * (xs.length : ℚ) + (p + 1) / 3⌋
    (by omega) h2
  refine ⟨a, b, ha, hb, ?_⟩
  unfold Quantile
  have e0 : xs.length ≠ 0 := by omega
  have e1 : xs.length ≠ 1 := by omega
  simp only [e0, e1, if_false, floatToInt_floatFloor, ha1, hb1, bind, Except.bind, pure,
    Except.pure]
  rfl

/-- In the general branch, `Quantile` returns exactly when `1 ≤ j < n`. -/
theorem Quantile_ok_iff (p : ℚ) (xs : List ℚ) (hn : 2 ≤ xs.length) :
    (∃ v, Quantile p xs = .ok v) ↔
      1 ≤ ⌊p * (xs.length : ℚ) + (p + 1) / 3⌋ ∧
      ⌊p * (xs.length : ℚ) + (p + 1) / 3⌋ < (xs.length : ℤ) := by
  constructor
  · rintro ⟨v, hv⟩
    have e0 : xs.length ≠ 0 := by omega
    have e1 : xs.length ≠ 1 := by omega
    unfold Quantile at hv
    simp only [e0, e1, if_false, floatToInt_floatFloor, bind, Except.bind] at hv
    cases ha : index xs (⌊p * (xs.length : ℚ) + (p + 1) / 3⌋ - 1) with
    | error e => rw [ha] at hv; exact Except.noConfusion hv
    | ok a =>
      cases hb : index xs ⌊p * (xs.length : ℚ) + (p + 1) / 3⌋ with
      | error e => rw [ha] at hv; simp only [hb] at hv; exact Except.noConfusion hv
      | ok b =>
        have h1 := ((index_eq_ok_iff _ _ _).mp ha).1
        have h2 := ((index_eq_ok_iff _ _ _).mp hb).2
        obtain ⟨hlt, -⟩ := List.getElem?_eq_some.mp h2
        constructor <;> omega
  · rintro ⟨h1, h2⟩
    obtain ⟨a, b, -, -, hq⟩ := Quantile_general p xs hn h1 h2
    exact ⟨_, hq⟩

/-- The index-safety range `1 ≤ j < n` expressed as a range of probabilities. -/
theorem floor_range_iff (p : ℚ) (n : ℕ) :
    (1 ≤ ⌊p * (n : ℚ) + (p + 1) / 3⌋ ∧ ⌊p * (n : ℚ) + (p + 1) / 3⌋ < (n : ℤ)) ↔
      (2 / (3 * (n : ℚ) + 1) ≤ p ∧ p < (3 * (n : ℚ) - 1) / (3 * (n : ℚ) + 1)) := by
  have hpos : (0 : ℚ) < 3 * (n : ℚ) + 1 := by positivity
  rw [Int.le_floor, Int.floor_lt, div_le_iff₀ hpos, lt_div_iff₀ hpos]
  push_cast
  constructor
  · rintro ⟨h1, h2⟩
    constructor <;> linarith
  · rintro ⟨h1, h2⟩
    constructor <;> linarith

/-- Lookups in an ascending list are ordered like their indices. -/
theorem sorted_lookup_le (xs : List ℚ) (hs : xs.Sorted (· ≤ ·)) (i k : ℕ) (a b : ℚ)
    (hik : i ≤ k) (ha : xs[i]? = some a) (hb : xs[k]? = some b) : a ≤ b := by
  obtain ⟨hi, rfl⟩ := List.getElem?_eq_some.mp ha
  obtain ⟨hk, rfl⟩ := List.getElem?_eq_some.mp hb
  rcases Nat.eq_or_lt_of_le hik with h | h
  · subst h; exact le_refl _
  · exact (List.pairwise_iff_getElem.mp hs) i k hi hk h

/-- On an ascending sample the returned quantile lies between the two values it
interpolates. -/
theorem Quantile_between (p : ℚ) (xs : List ℚ) (hs : xs.Sorted (· ≤ ·))
    (hn : 2 ≤ xs.length)
    (h1 : 1 ≤ ⌊p * (xs.length : ℚ) + (p + 1) / 3⌋)
    (h2 : ⌊p * (xs.length : ℚ) + (p + 1) / 3⌋ < (xs.length : ℤ)) :
    ∃ a b v, xs[(⌊p * (xs.length : ℚ) + (p + 1) / 3⌋ - 1).toNat]? = some a ∧
      xs[(⌊p * (xs.length : ℚ) + (p + 1) / 3⌋).toNat]? = some b ∧
      Quantile p xs = .ok v ∧ a ≤ v ∧ v ≤ b := by
  obtain ⟨a, b, ha, hb, hq⟩ := Quantile_general p xs hn h1 h2
  have hab : a ≤ b := sorted_lookup_le xs hs _ _ a b (by omega) ha hb
  have g0 : 0 ≤ p * (xs.length : ℚ) + (p + 1) / 3 - (⌊p * (xs.length : ℚ) + (p + 1) / 3⌋ : ℚ) :=
    sub_nonneg.mpr (Int.floor_le _)
  have g1 : p * (xs.length : ℚ) + (p + 1) / 3 - (⌊p * (xs.length : ℚ) + (p + 1) / 3⌋ : ℚ) ≤ 1 := by
    have := Int.lt_floor_add_one (p * (xs.length : ℚ) + (p + 1) / 3)
    linarith
  refine ⟨a, b, _, ha, hb, hq, ?_, ?_⟩
  · nlinarith [mul_nonneg g0 (sub_nonneg.mpr hab)]
  · nlinarith [mul_nonneg (sub_nonneg.mpr g1) (sub_nonneg.mpr hab)]

/-- Inside the index-safety range `Quantile` is monotone in the probability, on an
ascending sample. -/
theorem Quantile_mono_of_range (p1 p2 : ℚ) (xs : List ℚ) (hs : xs.Sorted (· ≤ ·))
    (hn : 2 ≤ xs.length) (hp : p1 ≤ p2)
    (h1 : 1 ≤ ⌊p1 * (xs.length : ℚ) + (p1 + 1) / 3⌋)
    (h2 : ⌊p2 * (xs.length : ℚ) + (p2 + 1) / 3⌋ < (xs.length : ℤ)) :
    ∃ v1 v2, Quantile p1 xs = .ok v1 ∧ Quantile p2 xs = .ok v2 ∧ v1 ≤ v2 := by
  have hle : p1 * (xs.length : ℚ) + (p1 + 1) / 3 ≤ p2 * (xs.length : ℚ) + (p2 + 1) / 3 := by
    have hn0 : (0 : ℚ) ≤ (xs.length : ℚ) := Nat.cast_nonneg _
    nlinarith [mul_nonneg (sub_nonneg.mpr hp) hn0]
  have hj : ⌊p1 * (xs.length : ℚ) + (p1 + 1) / 3⌋ ≤ ⌊p2 * (xs.length : ℚ) + (p2 + 1) / 3⌋ :=
    Int.floor_mono hle
  have h1' : 1 ≤ ⌊p2 * (xs.length : ℚ) + (p2 + 1) / 3⌋ := le_trans h1 hj
  have h2' : ⌊p1 * (xs.length : ℚ) + (p1 + 1) / 3⌋ < (xs.length : ℤ) := lt_of_le_of_lt hj h2
  rcases eq_or_lt_of_le hj with he | hlt
  · obtain ⟨a1, b1, ha1, hb1, hq1⟩ := Quantile_general p1 xs hn h1 h2'
    obtain ⟨a2, b2, ha2, hb2, hq2⟩ := Quantile_general p2 xs hn h1' h2
    rw [he] at ha1 hb1
    have ea : a1 = a2 := Option.some.inj (ha1.symm.trans ha2)
    have eb : b1 = b2 := Option.some.inj (hb1.symm.trans hb2)
    have hab : a2 ≤ b2 := sorted_lookup_le xs hs _ _ a2 b2 (by omega) ha2 hb2
    refine ⟨_, _, hq1, hq2, ?_⟩
    rw [he, ea, eb]
    nlinarith [mul_nonneg (sub_nonneg.mpr hle) (sub_nonneg.mpr hab)]
  · obtain ⟨a1, b1, v1, -, hb1, hq1, -, hv1⟩ := Quantile_between p1 xs hs hn h1 h2'
    obtain ⟨a2, b2, v2, ha2, -, hq2, hv2, -⟩ := Quantile_between p2 xs hs hn h1' h2
    have hmid : b1 ≤ a2 := sorted_lookup_le xs hs _ _ b1 a2 (by omega) hb1 ha2
    exact ⟨v1, v2, hq1, hq2, le_trans hv1 (le_trans hmid hv2)⟩

/-- For three or more values the quartile and median probabilities lie inside the
index-safety range. -/
theorem quartile_floor_range (n : ℕ) (hn : 3 ≤ n) :
    1 ≤ ⌊(1 / 4 : ℚ) * (n : ℚ) + (1 / 4 + 1) / 3⌋ ∧
    ⌊(3 / 4 : ℚ) * (n : ℚ) + (3 / 4 + 1) / 3⌋ < (n : ℤ) := by
  have hq : (3 : ℚ) ≤ (n : ℚ) := by exact_mod_cast hn
  rw [Int.le_floor, Int.floor_lt]
  push_cast
  constructor <;> linarith

/-- Both quartiles of an ascending sample of length `1` or at least `3` are
returned, in order. -/
theorem quartiles_ok (xs : List ℚ) (hs : xs.Sorted (· ≤ ·))
    (hlen : xs.length = 1 ∨ 3 ≤ xs.length) :
    ∃ q1 q3, Quantile (1 / 4) xs = .ok q1 ∧ Quantile (3 / 4) xs = .ok q3 ∧ q1 ≤ q3 := by
  rcases hlen with h1 | h3
  · obtain ⟨x, rfl⟩ := List.length_eq_one.mp h1
    exact ⟨x, x, by simp [Quantile, index], by simp [Quantile, index], le_refl _⟩
  · obtain ⟨hlo, hhi⟩ := quartile_floor_range xs.length h3
    exact Quantile_mono_of_range (1 / 4) (3 / 4) xs hs (by omega) (by norm_num) hlo hhi

/-- A returning call of `Outliers`, for a sample of length `1` or at least `3`. -/
theorem Outliers_returns (m : ℚ) (xs : List ℚ) (hlen : xs.length = 1 ∨ 3 ≤ xs.length) :
    ∃ q1 q3, Quantile (1 / 4) (sortFloat64s xs) = .ok q1 ∧
      Quantile (3 / 4) (sortFloat64s xs) = .ok q3 ∧ q1 ≤ q3 ∧
      (Outliers m xs).2 = .ok (scanOutliers (q1 - m * (q3 - q1)) (q3 + m * (q3 - q1))
        (sortFloat64s xs), q1 - m * (q3 - q1), q3 + m * (q3 - q1)) := by
  have hl : (sortFloat64s xs).length = xs.length := (sortFloat64s_perm xs).length_eq
  obtain ⟨q1, q3, h1, h3, hle⟩ := quartiles_ok (sortFloat64s xs) (sortFloat64s_sorted xs)
    (by rw [hl]; exact hlen)
  refine ⟨q1, q3, h1, h3, hle, ?_⟩
  rw [Outliers_ok_iff]
  exact ⟨q1, q3, h1, h3, rfl, rfl, rfl⟩

/-- Below the safe range the first lookup `xs[j-1]` panics. -/
theorem Quantile_panic_low (p : ℚ) (xs : List ℚ) (hn : 2 ≤ xs.length)
    (h : ⌊p * (xs.length : ℚ) + (p + 1) / 3⌋ < 1) :
    Quantile p xs = .error
      (.indexOutOfRange (⌊p * (xs.length : ℚ) + (p + 1) / 3⌋ - 1) xs.length) := by
  have e0 : xs.length ≠ 0 := by omega
  have e1 : xs.length ≠ 1 := by omega
  have hneg : ⌊p * (xs.length : ℚ) + (p + 1) / 3⌋ - 1 < 0 := by omega
  simp only [Quantile, e0, e1, if_false, floatToInt_floatFloor, index, hneg, if_true, bind,
    Except.bind]

/-- When `j` equals the length, the lookup `xs[j-1]` succeeds and `xs[j]` panics. -/
theorem Quantile_panic_at_length (p : ℚ) (xs : List ℚ) (hn : 2 ≤ xs.length)
    (h : ⌊p * (xs.length : ℚ) + (p + 1) / 3⌋ = (xs.length : ℤ)) :
    Quantile p xs = .error (.indexOutOfRange xs.length xs.length) := by
  have e0 : xs.length ≠ 0 := by omega
  have e1 : xs.length ≠ 1 := by omega
  obtain ⟨a, -, ha⟩ := index_ok_of_lt xs ((xs.length : ℤ) - 1) (by omega) (by omega)
  have hb : index xs (xs.length : ℤ) = .error (.indexOutOfRange xs.length xs.length) := by
    simp [index]
  simp only [Quantile, e0, e1, if_false, floatToInt_floatFloor, h, ha, hb, bind, Except.bind]

/-! ## Facts on the float64 reading -/

theorem SliceM.bind_apply {α β : Type} (x : SliceM α) (f : α → SliceM β) (h : List Float64) :
    (x >>= f) h = match x h with
      | (h1, .ok a) => f a h1
      | (h1, .error e) => (h1, .error e) := rfl

theorem SliceM.pure_apply {α : Type} (a : α) (h : List Float64) :
    (Pure.pure a : SliceM α) h = (h, .ok a) := rfl

theorem index64_eq_ok_iff (xs : List Float64) (i : ℤ) (v : Float64) :
    index64 xs i = .ok v ↔ 0 ≤ i ∧ xs[i.toNat]? = some v := by
  unfold index64
  by_cases hi : i < 0
  · simp [hi]
  · simp only [hi, if_false]
    cases hx : xs[i.toNat]? <;> simp [not_lt.mp hi]

theorem Quantile64_nil (p : Float64) : Quantile64 p [] = ([], .error .emptyArgument) := rfl

theorem Quantile64_singleton (p x : Float64) : Quantile64 p [x] = ([x], .ok x) := rfl

/-- The general branch of `Quantile64`: the slice is left as it is and the result is
the interpolation of the two lookups, or the panic of the first lookup that fails. -/
theorem Quantile64_general (p : Float64) (xs : List Float64) (hn : 2 ≤ xs.length) :
    Quantile64 p xs = (xs,
      match index64 xs (Float64.toInt (Float64.floor
          (p * Float64.ofNat xs.length + (p + .fin 1) / .fin 3)) - 1) with
      | .error e => .error e
      | .ok a =>
        match index64 xs (Float64.toInt (Float64.floor
            (p * Float64.ofNat xs.length + (p + .fin 1) / .fin 3))) with
        | .error e => .error e
        | .ok b => .ok ((.fin 1 - (p * Float64.ofNat xs.length + (p + .fin 1) / .fin 3
            - Float64.floor (p * Float64.ofNat xs.length + (p + .fin 1) / .fin 3))) * a
            + (p * Float64.ofNat xs.length + (p + .fin 1) / .fin 3
            - Float64.floor (p * Float64.ofNat xs.length + (p + .fin 1) / .fin 3)) * b)) := by
  have e0 : xs.length ≠ 0 := by omega
  have e1 : xs.length ≠ 1 := by omega
  unfold Quantile64
  simp only [SliceM.bind_apply, SliceM.len, e0, e1, if_false, SliceM.load]
  cases ha : index64 xs (Float64.toInt (Float64.floor
      (p * Float64.ofNat xs.length + (p + .fin 1) / .fin 3)) - 1) with
  | error e => rfl
  | ok a =>
    cases hb : index64 xs (Float64.toInt (Float64.floor
        (p * Float64.ofNat xs.length + (p + .fin 1) / .fin 3))) with
    | error e => simp only [hb]
    | ok b => simp only [hb]; rfl

/-- The frame property of `Quantile64`: no call changes the slice. -/
theorem Quantile64_frame (p : Float64) (xs : List Float64) : (Quantile64 p xs).1 = xs := by
  match xs with
  | [] => rfl
  | [x] => rfl
  | x :: y :: zs => rw [Quantile64_general p (x :: y :: zs) (by simp)]

/-- In the general branch, `Quantile64` returns exactly when the index `j` it
computes satisfies `1 ≤ j < n`. -/
theorem Quantile64_ok_iff (p : Float64) (xs : List Float64) (hn : 2 ≤ xs.length) :
    (∃ v, (Quantile64 p xs).2 = .ok v) ↔
      1 ≤ Float64.toInt (Float64.floor
          (p * Float64.ofNat xs.length + (p + .fin 1) / .fin 3)) ∧
      Float64.toInt (Float64.floor
          (p * Float64.ofNat xs.length + (p + .fin 1) / .fin 3)) < (xs.length : ℤ) := by
  rw [Quantile64_general p xs hn]
  constructor
  · rintro ⟨v, hv⟩
    cases ha : index64 xs (Float64.toInt (Float64.floor
        (p * Float64.ofNat xs.length + (p + .fin 1) / .fin 3)) - 1) with
    | error e => simp only [ha] at hv; exact Except.noConfusion hv
    | ok a =>
      cases hb : index64 xs (Float64.toInt (Float64.floor
          (p * Float64.ofNat xs.length + (p + .fin 1) / .fin 3))) with
      | error e => simp only [ha, hb] at hv; exact Except.noConfusion hv
      | ok b =>
        have h1 := ((index64_eq_ok_iff _ _ _).mp ha).1
        have h2 := ((index64_eq_ok_iff _ _ _).mp hb).2
        obtain ⟨hlt, -⟩ := List.getElem?_eq_some.mp h2
        constructor <;> omega
  · rintro ⟨h1, h2⟩
    have hlt1 : (Float64.toInt (Float64.floor
        (p * Float64.ofNat xs.length + (p + .fin 1) / .fin 3)) - 1).toNat < xs.length := by
      omega
    have hlt2 : (Float64.toInt (Float64.floor
        (p * Float64.ofNat xs.length + (p + .fin 1) / .fin 3))).toNat < xs.length := by
      omega
    have ha := (index64_eq_ok_iff xs _ _).mpr ⟨by omega, List.getElem?_eq_getElem hlt1⟩
    have hb := (index64_eq_ok_iff xs _ _).mpr ⟨by omega, List.getElem?_eq_getElem hlt2⟩
    simp only [ha, hb]
    exact ⟨_, rfl⟩

theorem foldl_append_filter64 (lo hi : Float64) (xs acc : List Float64) :
    xs.foldl (fun outliers x =>
        if Float64.lt x lo || Float64.lt hi x then outliers ++ [x] else outliers) acc
      = acc ++ xs.filter (fun x => Float64.lt x lo || Float64.lt hi x) := by
  induction xs generalizing acc with
  | nil => simp
  | cons x xs ih =>
    rw [List.foldl_cons, ih]
    by_cases hx : (Float64.lt x lo || Float64.lt hi x) = true
    · simp [hx, List.filter_cons]
    · simp [hx, List.filter_cons]

theorem scanOutliers64_eq_filter (lo hi : Float64) (xs : List Float64) :
    scanOutliers64 lo hi xs = xs.filter (fun x => Float64.lt x lo || Float64.lt hi x) := by
  unfold scanOutliers64
  rw [foldl_append_filter64, List.nil_append]

/-- The slice after `Outliers64`, returned or panicked, is the sorted slice. -/
theorem Outliers64_fst (m : Float64) (xs : List Float64) :
    (Outliers64 m xs).1 = (SliceM.sort xs).1 := by
  unfold Outliers64
  simp only [SliceM.bind_apply, SliceM.sort, SliceM.range]
  generalize xs.insertionSort (fun a b => Float64.sortLess b a = false) = s
  have f1 := Quantile64_frame (.fin (1 / 4)) s
  have f3 := Quantile64_frame (.fin (3 / 4)) s
  rcases h1 : Quantile64 (.fin (1 / 4)) s with ⟨s1, r1⟩
  rw [h1] at f1
  simp only at f1
  subst f1
  cases r1 with
  | error e => rfl
  | ok q1 =>
    simp only
    rcases h3 : Quantile64 (.fin (3 / 4)) s1 with ⟨s3, r3⟩
    rw [h3] at f3
    simp only at f3
    subst f3
    cases r3 with
    | error e => rfl
    | ok q3 => rfl

/-- Complete description of a returning call of `Outliers64`. -/
theorem Outliers64_ok_iff (m : Float64) (xs o : List Float64) (lo hi : Float64) :
    (Outliers64 m xs).2 = .ok (o, lo, hi) ↔
      ∃ q1 q3, (Quantile64 (.fin (1 / 4)) (SliceM.sort xs).1).2 = .ok q1 ∧
        (Quantile64 (.fin (3 / 4)) (SliceM.sort xs).1).2 = .ok q3 ∧
        lo = q1 - m * (q3 - q1) ∧ hi = q3 + m * (q3 - q1) ∧
        o = scanOutliers64 lo hi (SliceM.sort xs).1 := by
  unfold Outliers64
  simp only [SliceM.bind_apply, SliceM.sort, SliceM.range]
  generalize xs.insertionSort (fun a b => Float64.sortLess b a = false) = s
  have f1 := Quantile64_frame (.fin (1 / 4)) s
  have f3 := Quantile64_frame (.fin (3 / 4)) s
  rcases h1 : Quantile64 (.fin (1 / 4)) s with ⟨s1, r1⟩
  rw [h1] at f1
  simp only at f1
  subst f1
  cases r1 with
  | error e => simp
  | ok q1 =>
    simp only
    rcases h3 : Quantile64 (.fin (3 / 4)) s1 with ⟨s3, r3⟩
    rw [h3] at f3
    simp only at f3
    subst f3
    cases r3 with
    | error e => simp
    | ok q3 =>
      simp only [SliceM.pure_apply, Except.ok.injEq, Prod.mk.injEq, exists_and_left,
        exists_eq_left']
      constructor
      · rintro ⟨rfl, rfl, rfl⟩
        exact ⟨rfl, rfl, rfl⟩
      · rintro ⟨rfl, rfl, rfl⟩
        exact ⟨rfl, rfl, rfl⟩

theorem sort64_perm (xs : List Float64) : ((SliceM.sort xs).1).Perm xs :=
  List.perm_insertionSort _ xs

theorem sortOrder_total (a b : Float64) :
    Float64.sortLess b a = false ∨ Float64.sortLess a b = false := by
  rcases a with _ | s | a <;> rcases b with _ | t | b <;>
    simp [Float64.sortLess, Float64.lt, Float64.isNaN]
  · cases s <;> cases t <;> simp
  · exact le_total a b

theorem sortOrder_trans (a b c : Float64) (h1 : Float64.sortLess b a = false)
    (h2 : Float64.sortLess c b = false) : Float64.sortLess c a = false := by
  rcases a with _ | s | a <;> rcases b with _ | t | b <;> rcases c with _ | u | c <;>
    simp [Float64.sortLess, Float64.lt, Float64.isNaN] at h1 h2 ⊢
  all_goals first
    | exact le_trans h1 h2
    | (cases s <;> cases t <;> cases u <;> simp_all)
    | (cases s <;> cases t <;> simp_all)
    | (cases s <;> cases u <;> simp_all)
    | (cases t <;> cases u <;> simp_all)
    | (cases s <;> simp_all)
    | (cases t <;> simp_all)
    | (cases u <;> simp_all)

/-- The sorted slice is ordered by the order of `sort.Float64s`. -/
theorem sort64_sorted (xs : List Float64) :
    ((SliceM.sort xs).1).Sorted (fun a b => Float64.sortLess b a = false) :=
  @List.sorted_insertionSort Float64 (fun a b => Float64.sortLess b a = false) _
    ⟨sortOrder_total⟩ ⟨sortOrder_trans⟩ xs

/-- Away from NaN the order of `sort.Float64s` is the order `<=`. -/
theorem le_of_sortOrder (a b : Float64) (ha : a ≠ .nan) (hb : b ≠ .nan)
    (h : Float64.sortLess b a = false) : Float64.le a b = true := by
  rcases a with _ | s | a <;> rcases b with _ | t | b <;>
    simp [Float64.sortLess, Float64.lt, Float64.le, Float64.isNaN] at ha hb h ⊢
  · cases s <;> cases t <;> simp_all
  · exact h
  · exact h
  · exact h

/-- Away from NaN, "not below" is `<=` reversed. -/
theorem le_of_not_lt (a b : Float64) (ha : a ≠ .nan) (hb : b ≠ .nan)
    (h : Float64.lt a b = false) : Float64.le b a = true := by
  rcases a with _ | s | a <;> rcases b with _ | t | b <;>
    simp [Float64.lt, Float64.le] at ha hb h ⊢
  · cases s <;> cases t <;> simp_all
  · exact h
  · exact h
  · exact h

/-- A panic of the lower quartile is the panic of `Outliers64`. -/
theorem Outliers64_error_of_lower (m : Float64) (xs : List Float64) (e : Panic)
    (h : (Quantile64 (.fin (1 / 4)) (SliceM.sort xs).1).2 = .error e) :
    (Outliers64 m xs).2 = .error e := by
  unfold Outliers64
  simp only [SliceM.bind_apply, SliceM.sort] at h ⊢
  generalize xs.insertionSort (fun a b => Float64.sortLess b a = false) = s at h ⊢
  rcases h1 : Quantile64 (.fin (1 / 4)) s with ⟨s1, r1⟩
  rw [h1] at h
  simp only at h
  subst h
  rfl

/-! ## The claims -/

/-- C1. Outlier classification, in float64: when `Outliers64 m xs` returns
`(o, lo, hi)`, every returned value is strictly below `lo` or strictly above `hi`;
every sample value that is not returned is neither below `lo` nor above `hi`, and
so lies in `[lo, hi]` whenever it and both fences are numbers (not NaN); and `o` is
exactly the sorted sample filtered by `x < lo || x > hi`, order and multiplicities
included, the sorted sample being a permutation of the input in the order of
`sort.Float64s`. -/
theorem Outliers_classification (m : Float64) (xs o : List Float64) (lo hi : Float64)
    (h : (Outliers64 m xs).2 = .ok (o, lo, hi)) :
    (∀ x ∈ o, Float64.lt x lo = true ∨ Float64.lt hi x = true) ∧
    (∀ x ∈ xs, x ∉ o → Float64.lt x lo = false ∧ Float64.lt hi x = false) ∧
    (∀ x ∈ xs, x ∉ o → x ≠ .nan → lo ≠ .nan → hi ≠ .nan →
      Float64.le lo x = true ∧ Float64.le x hi = true) ∧
    o = ((Outliers64 m xs).1).filter (fun x => Float64.lt x lo || Float64.lt hi x) ∧
    ((Outliers64 m xs).1).Perm xs ∧
    ((Outliers64 m xs).1).Sorted (fun a b => Float64.sortLess b a = false) := by
  obtain ⟨q1, q3, -, -, -, -, ho⟩ := (Outliers64_ok_iff m xs o lo hi).mp h
  rw [scanOutliers64_eq_filter] at ho
  have hout : ∀ x ∈ xs, x ∉ o → Float64.lt x lo = false ∧ Float64.lt hi x = false := by
    intro x hx hxo
    have hxs : x ∈ (SliceM.sort xs).1 := (sort64_perm xs).mem_iff.mpr hx
    have hnot : ¬ ((Float64.lt x lo || Float64.lt hi x) = true) := by
      intro hc
      apply hxo
      rw [ho, List.mem_filter]
      exact ⟨hxs, hc⟩
    simpa using hnot
  refine ⟨?_, hout, ?_, ?_, ?_, ?_⟩
  · intro x hx
    rw [ho, List.mem_filter] at hx
    simpa using hx.2
  · intro x hx hxo hxn hlon hhin
    obtain ⟨h1, h2⟩ := hout x hx hxo
    exact ⟨le_of_not_lt x lo hxn hlon h1, le_of_not_lt hi x hhin hxn h2⟩
  · rw [Outliers64_fst]
    exact ho
  · rw [Outliers64_fst]
    exact sort64_perm xs
  · rw [Outliers64_fst]
    exact sort64_sorted xs

theorem Outliers_classification_witness :
    (∀ x ∈ [Float64.fin 20, .fin 400],
      Float64.lt x (.fin (-2439449798159019 / 562949953421312)) = true ∨
        Float64.lt (.fin 17) x = true) ∧
    (∀ x ∈ [Float64.fin 7, .fin 3, .fin 4, .fin 2, .fin 9, .fin 8, .fin 7, .fin 4, .fin 3,
        .fin 20, .fin 9, .fin 7, .fin 400],
      x ∉ [Float64.fin 20, .fin 400] →
        Float64.lt x (.fin (-2439449798159019 / 562949953421312)) = false ∧
          Float64.lt (.fin 17) x = false) ∧
    (∀ x ∈ [Float64.fin 7, .fin 3, .fin 4, .fin 2, .fin 9, .fin 8, .fin 7, .fin 4, .fin 3,
        .fin 20, .fin 9, .fin 7, .fin 400],
      x ∉ [Float64.fin 20, .fin 400] → x ≠ .nan →
        Float64.fin (-2439449798159019 / 562949953421312) ≠ .nan → Float64.fin 17 ≠ .nan →
        Float64.le (.fin (-2439449798159019 / 562949953421312)) x = true ∧
          Float64.le x (.fin 17) = true) ∧
    [Float64.fin 20, .fin 400] =
      ((Outliers64 (.fin (3 / 2)) [.fin 7, .fin 3, .fin 4, .fin 2, .fin 9, .fin 8, .fin 7,
        .fin 4, .fin 3, .fin 20, .fin 9, .fin 7, .fin 400]).1).filter
        (fun x => Float64.lt x (.fin (-2439449798159019 / 562949953421312)) ||
          Float64.lt (.fin 17) x) ∧
    ((Outliers64 (.fin (3 / 2)) [.fin 7, .fin 3, .fin 4, .fin 2, .fin 9, .fin 8, .fin 7,
        .fin 4, .fin 3, .fin 20, .fin 9, .fin 7, .fin 400]).1).Perm
      [.fin 7, .fin 3, .fin 4, .fin 2, .fin 9, .fin 8, .fin 7, .fin 4, .fin 3, .fin 20,
        .fin 9, .fin 7, .fin 400] ∧
    ((Outliers64 (.fin (3 / 2)) [.fin 7, .fin 3, .fin 4, .fin 2, .fin 9, .fin 8, .fin 7,
        .fin 4, .fin 3, .fin 20, .fin 9, .fin 7, .fin 400]).1).Sorted
      (fun a b => Float64.sortLess b a = false) :=
  Outliers_classification (.fin (3 / 2))
    [.fin 7, .fin 3, .fin 4, .fin 2, .fin 9, .fin 8, .fin 7, .fin 4, .fin 3, .fin 20,
      .fin 9, .fin 7, .fin 400]
    [.fin 20, .fin 400] (.fin (-2439449798159019 / 562949953421312)) (.fin 17) (by decide!)

/-- Counterexample to C1 as stated: on the finite sample `[-1.7e308, 0, 1.7e308]`
with multiplier `0` the interquartile range overflows to `+Inf`, both fences are
`0 * Inf = NaN`, no value is returned, and the sample value `0` is not inside
`[lowFence, highFence]`. -/
theorem Outliers_classification_fails :
    ∃ o lo hi,
      (Outliers64 (.fin 0) [.ofRat (-17 * 10 ^ 307), .fin 0, .ofRat (17 * 10 ^ 307)]).2
        = .ok (o, lo, hi) ∧
      Float64.fin 0 ∈ [Float64.ofRat (-17 * 10 ^ 307), .fin 0, .ofRat (17 * 10 ^ 307)] ∧
      Float64.fin 0 ∉ o ∧
      ¬ (Float64.le lo (.fin 0) = true ∧ Float64.le (.fin 0) hi = true) :=
  ⟨[], .nan, .nan, by decide!, by simp, by simp, by decide⟩

/-- C2. Known-value regression of `TestTukey`: on the sample
`[7, 3, 4, 2, 9, 8, 7, 4, 3, 20, 9, 7, 400]` with multiplier `1.5`, `Outliers`
returns the outliers `[20, 400]` in that order, the low fence `-13/3`, which prints
as `-4.33`, and the high fence `17`, which prints as `17.00`. -/
theorem Outliers_known_value :
    ∃ o lo hi, (Outliers (3 / 2) [7, 3, 4, 2, 9, 8, 7, 4, 3, 20, 9, 7, 400]).2 = .ok (o, lo, hi) ∧
      o = [20, 400] ∧ lo = -13 / 3 ∧ hi = 17 ∧ sprintf2 lo = -433 ∧ sprintf2 hi = 1700 :=
  ⟨[20, 400], -13 / 3, 17, by decide!, rfl, rfl, rfl, by decide!, by decide!⟩

/-- C3. `Quantile` is the Hyndman-Fan Definition 8 estimator: for a sample of
length `n ≥ 2`, with `m = (p + 1) / 3`, `h = p * n + m`, `j = ⌊h⌋` and
`γ = h - j`, whenever both lookups are in range (`1 ≤ j < n`) the call returns
`(1 - γ) * xs[j-1] + γ * xs[j]` (0-based), and `0 ≤ γ < 1`. -/
theorem Quantile_definition8 (p : ℚ) (xs : List ℚ) (n m h γ : ℚ) (j : ℤ)
    (hn : 2 ≤ xs.length) (en : n = (xs.length : ℚ)) (em : m = (p + 1) / 3)
    (eh : h = p * n + m) (ej : j = ⌊h⌋) (eg : γ = h - (j : ℚ))
    (h1 : 1 ≤ j) (h2 : j < (xs.length : ℤ)) :
    ∃ a b, xs[(j - 1).toNat]? = some a ∧ xs[j.toNat]? = some b ∧
      Quantile p xs = .ok ((1 - γ) * a + γ * b) ∧ 0 ≤ γ ∧ γ < 1 := by
  subst en em eh ej eg
  obtain ⟨a, b, ha, hb, hq⟩ := Quantile_general p xs hn h1 h2
  refine ⟨a, b, ha, hb, hq, ?_, ?_⟩
  · exact sub_nonneg.mpr (Int.floor_le _)
  · have := Int.lt_floor_add_one (p * (xs.length : ℚ) + (p + 1) / 3)
    linarith

theorem Quantile_definition8_witness :
    ∃ a b, [1, 2, 3, (4 : ℚ)][((2 : ℤ) - 1).toNat]? = some a ∧
      [1, 2, 3, (4 : ℚ)][(2 : ℤ).toNat]? = some b ∧
      Quantile (1 / 2) [1, 2, 3, 4] = .ok ((1 - (1 / 2 : ℚ)) * a + (1 / 2 : ℚ) * b) ∧
      0 ≤ (1 / 2 : ℚ) ∧ (1 / 2 : ℚ) < 1 :=
  Quantile_definition8 (1 / 2) [1, 2, 3, 4] 4 (1 / 2) (5 / 2) (1 / 2) 2
    (by decide) (by decide!) (by decide!) (by decide!) (by decide!) (by decide!)
    (by decide) (by decide)

/-- C4. Fence definition: when `Outliers m xs` returns `(o, lo, hi)`, then for the
ascending sort `s` of the input both quartiles `Q1 = Quantile 0.25 s` and
`Q3 = Quantile 0.75 s` are returned, `lo = Q1 - m * (Q3 - Q1)` and
`hi = Q3 + m * (Q3 - Q1)`, whatever the outlier list `o` is. -/
theorem Outliers_fences (m : ℚ) (xs o : List ℚ) (lo hi : ℚ)
    (h : (Outliers m xs).2 = .ok (o, lo, hi))
    (s : List ℚ) (hs : s.Sorted (· ≤ ·)) (hp : s.Perm xs) :
    ∃ q1 q3, Quantile (1 / 4) s = .ok q1 ∧ Quantile (3 / 4) s = .ok q3 ∧
      lo = q1 - m * (q3 - q1) ∧ hi = q3 + m * (q3 - q1) := by
  obtain ⟨q1, q3, h1, h3, hlo, hhi, -⟩ := (Outliers_ok_iff m xs o lo hi).mp h
  rw [sortFloat64s_eq_of_sorted_perm xs s hs hp] at h1 h3
  exact ⟨q1, q3, h1, h3, hlo, hhi⟩

theorem Outliers_fences_witness :
    ∃ q1 q3, Quantile (1 / 4) [1, 2, 3] = .ok q1 ∧ Quantile (3 / 4) [1, 2, 3] = .ok q3 ∧
      (-4 / 3 : ℚ) = q1 - (3 / 2) * (q3 - q1) ∧ (16 / 3 : ℚ) = q3 + (3 / 2) * (q3 - q1) :=
  Outliers_fences (3 / 2) [3, 1, 2] [] (-4 / 3) (16 / 3) (by decide!) [1, 2, 3]
    (by decide!) (by decide)

/-- C5. On every two-element sample `[x, y]` the quartile calls of `TestQuick`
panic instead of returning: `Quantile 0.25` computes `j = 0` and reads index `-1`,
`Quantile 0.75` computes `j = 2` and reads index `2`; only the median is returned. -/
theorem Quantile_quartiles_pair (x y : ℚ) :
    Quantile (1 / 4) [x, y] = .error (.indexOutOfRange (-1) 2) ∧
    Quantile (1 / 2) [x, y] = .ok ((1 - 1 / 2) * x + 1 / 2 * y) ∧
    Quantile (3 / 4) [x, y] = .error (.indexOutOfRange 2 2) := by
  have f1 : ⌊(1 / 4 : ℚ) * ((2 : ℕ) : ℚ) + (1 / 4 + 1) / 3⌋ = 0 := by
    rw [Int.floor_eq_iff]; norm_num
  have f2 : ⌊(1 / 2 : ℚ) * ((2 : ℕ) : ℚ) + (1 / 2 + 1) / 3⌋ = 1 := by
    rw [Int.floor_eq_iff]; norm_num
  have f3 : ⌊(3 / 4 : ℚ) * ((2 : ℕ) : ℚ) + (3 / 4 + 1) / 3⌋ = 2 := by
    rw [Int.floor_eq_iff]; norm_num
  refine ⟨?_, ?_, ?_⟩
  · simp only [Quantile, List.length_cons, List.length_nil, floatToInt_floatFloor, f1]
    rfl
  · simp only [Quantile, List.length_cons, List.length_nil, floatToInt_floatFloor, f2]
    simp only [floatFloor, f2, index, bind, Except.bind, pure, Except.pure]
    norm_num
  · simp only [Quantile, List.length_cons, List.length_nil, floatToInt_floatFloor, f3]
    rfl

/-- C6. At the end points of `[0, 1]` the general branch of `Quantile` panics on
every sample of length `n ≥ 2`: `p = 0` gives `j = 0` and the lookup `xs[-1]`,
`p = 1` gives `j = n` and, after reading `xs[n-1]`, the lookup `xs[n]`. -/
theorem Quantile_endpoints_panic (xs : List ℚ) (hn : 2 ≤ xs.length) :
    Quantile 0 xs = .error (.indexOutOfRange (-1) xs.length) ∧
    Quantile 1 xs = .error (.indexOutOfRange xs.length xs.length) := by
  have e0 : xs.length ≠ 0 := by omega
  have e1 : xs.length ≠ 1 := by omega
  have f0 : ⌊(0 : ℚ) * (xs.length : ℚ) + (0 + 1) / 3⌋ = 0 := by
    rw [Int.floor_eq_iff]; norm_num
  have f1 : ⌊(1 : ℚ) * (xs.length : ℚ) + (1 + 1) / 3⌋ = (xs.length : ℤ) := by
    rw [Int.floor_eq_iff]; push_cast; constructor <;> linarith
  constructor
  · simp only [Quantile, e0, e1, if_false, floatToInt_floatFloor, f0]
    rfl
  · obtain ⟨a, -, ha⟩ := index_ok_of_lt xs ((xs.length : ℤ) - 1) (by omega) (by omega)
    have hb : index xs (xs.length : ℤ) = .error (.indexOutOfRange xs.length xs.length) := by
      simp [index]
    simp only [Quantile, e0, e1, if_false, floatToInt_floatFloor, f1, ha, hb, bind,
      Except.bind]

theorem Quantile_endpoints_panic_witness :
    Quantile 0 [1, 2, 3] = .error (.indexOutOfRange (-1) ([1, 2, (3 : ℚ)]).length) ∧
    Quantile 1 [1, 2, 3] = .error
      (.indexOutOfRange ([1, 2, (3 : ℚ)]).length ([1, 2, (3 : ℚ)]).length) :=
  Quantile_endpoints_panic [1, 2, 3] (by decide)

/-- C7. Single-element identity: `Quantile p [x]` returns `x` for every `p`. -/
theorem Quantile_singleton (p x : ℚ) : Quantile p [x] = .ok x := by
  simp [Quantile, index]

/-- C8. Empty-sequence failure: for every `p`, `Quantile p []` panics with the
precondition violation and returns no value. -/
theorem Quantile_nil (p : ℚ) :
    Quantile p [] = .error .emptyArgument ∧ ∀ v, Quantile p [] ≠ .ok v := by
  have h : Quantile p [] = .error .emptyArgument := by simp [Quantile]
  refine ⟨h, ?_⟩
  intro v hv
  rw [h] at hv
  exact Except.noConfusion hv

/-- C9. `Quantile` does have failures on non-empty ascending samples, for
probabilities inside `[0, 1]` and for malformed ones alike: it is not true that
`Quantile p xs` fails only when `xs` is empty. -/
theorem Quantile_fails_on_nonempty :
    Quantile (3 / 4) [1, 2] = .error (.indexOutOfRange 2 2) ∧
    Quantile 2 [1, 2, 3] = .error (.indexOutOfRange 6 3) ∧
    Quantile (-1) [1, 2, 3] = .error (.indexOutOfRange (-4) 3) ∧
    ¬ ∀ (p : ℚ) (xs : List ℚ), (∃ e, Quantile p xs = .error e) ↔ xs = [] := by
  refine ⟨by decide!, by decide!, by decide!, ?_⟩
  intro hall
  have hne := (hall (3 / 4) [1, 2]).mp ⟨.indexOutOfRange 2 2, by decide!⟩
  exact List.cons_ne_nil _ _ hne

/-- C10. `Outliers` propagates the empty-sequence failure: for every multiplier
`m`, `Outliers m []` panics with the very panic of `Quantile` on the empty
sequence and returns no result. -/
theorem Outliers_nil (m : ℚ) :
    (Outliers m []).2 = .error .emptyArgument ∧
    (∀ p e, Quantile p [] = .error e → (Outliers m []).2 = .error e) ∧
    ∀ r, (Outliers m []).2 ≠ .ok r := by
  have h : (Outliers m []).2 = .error .emptyArgument := by
    simp [Outliers, sortFloat64s, Quantile, bind, Except.bind]
  refine ⟨h, ?_, ?_⟩
  · intro p e hq
    have hq0 : Quantile p [] = .error .emptyArgument := by simp [Quantile]
    rw [hq0] at hq
    rw [h, ← Except.error.inj hq]
  · intro r hr
    rw [h] at hr
    exact Except.noConfusion hr

/-- C11. Constant samples, in float64: on the two-element constant sample `[c, c]`,
`Outliers64` panics for every multiplier and every value `c` (the lookup `xs[-1]`
of the lower quartile) instead of returning zero-width fences; and on the constant
sample `[0.9, 0.9, 0.9]` with multiplier `1.5` it returns all three values as
outliers, with `lowFence = 0.9000000000000004` above
`highFence = 0.8999999999999999`. -/
theorem Outliers_constant_sample (m c : Float64) :
    (Outliers64 m [c, c]).2 = .error (.indexOutOfRange (-1) 2) ∧
    (Outliers64 (.fin (3 / 2)) [.ofRat (9 / 10), .ofRat (9 / 10), .ofRat (9 / 10)]).2 =
      .ok ([.ofRat (9 / 10), .ofRat (9 / 10), .ofRat (9 / 10)],
        .fin (506654958079181 / 562949953421312),
        .fin (2026619832316723 / 2251799813685248)) ∧
    Float64.lt (.fin (2026619832316723 / 2251799813685248))
      (.fin (506654958079181 / 562949953421312)) = true := by
  refine ⟨?_, by decide!, by decide!⟩
  have hsort : (SliceM.sort [c, c]).1 = [c, c] := by
    unfold SliceM.sort
    simp only [List.insertionSort, List.orderedInsert]
    split <;> rfl
  have hj : Float64.toInt (Float64.floor
      (Float64.fin (1 / 4) * Float64.ofNat 2 + (Float64.fin (1 / 4) + .fin 1) / .fin 3))
      = 0 := by decide!
  have hlen : ([c, c] : List Float64).length = 2 := rfl
  have hidx : index64 [c, c] (0 - 1) = .error (.indexOutOfRange (-1) 2) := rfl
  have hq : Quantile64 (.fin (1 / 4)) [c, c] = ([c, c], .error (.indexOutOfRange (-1) 2)) := by
    rw [Quantile64_general (.fin (1 / 4)) [c, c] (by simp), hlen, hj, hidx]
  apply Outliers64_error_of_lower
  rw [hsort, hq]

/-- C12. Outlier list order: when `Outliers m xs` returns `(o, lo, hi)`, the list
`o` is a sublist of the ascending sort of `xs`; hence it is ascending, holds only
values of the sample, and holds each value at most as often as the sample does. -/
theorem Outliers_sublist (m : ℚ) (xs o : List ℚ) (lo hi : ℚ)
    (h : (Outliers m xs).2 = .ok (o, lo, hi)) :
    (∀ s : List ℚ, s.Sorted (· ≤ ·) → s.Perm xs → o.Sublist s) ∧
    o.Sorted (· ≤ ·) ∧ (∀ x ∈ o, x ∈ xs) ∧ ∀ x, o.count x ≤ xs.count x := by
  obtain ⟨q1, q3, -, -, -, -, ho⟩ := (Outliers_ok_iff m xs o lo hi).mp h
  rw [scanOutliers_eq_filter] at ho
  have hsub : o.Sublist (sortFloat64s xs) := by
    rw [ho]; exact List.filter_sublist _
  refine ⟨?_, ?_, ?_, ?_⟩
  · intro s hs hp
    rw [← sortFloat64s_eq_of_sorted_perm xs s hs hp]
    exact hsub
  · exact List.Pairwise.sublist hsub (sortFloat64s_sorted xs)
  · intro x hx
    exact (sortFloat64s_perm xs).mem_iff.mp (hsub.subset hx)
  · intro x
    rw [← (sortFloat64s_perm xs).count_eq x]
    exact hsub.count_le x

theorem Outliers_sublist_witness :
    (∀ s : List ℚ, s.Sorted (· ≤ ·) → s.Perm [7, 3, 4, 2, 9, 8, 7, 4, 3, 20, 9, 7, 400] →
      ([20, 400] : List ℚ).Sublist s) ∧
    ([20, 400] : List ℚ).Sorted (· ≤ ·) ∧
    (∀ x ∈ ([20, 400] : List ℚ), x ∈ [7, 3, 4, 2, 9, 8, 7, 4, 3, 20, 9, 7, 400]) ∧
    ∀ x : ℚ, ([20, 400] : List ℚ).count x ≤
      ([7, 3, 4, 2, 9, 8, 7, 4, 3, 20, 9, 7, 400] : List ℚ).count x :=
  Outliers_sublist (3 / 2) [7, 3, 4, 2, 9, 8, 7, 4, 3, 20, 9, 7, 400] [20, 400]
    (-13 / 3) 17 (by decide!)

/-- C13. Idempotence under re-sort: two sequences holding the same dataset (one a
permutation of the other) give the same call of `Outliers`: the same fences and the
same outlier list, order included, or the same panic; in particular a second run on
the sorted sequence left behind by the first run repeats its result. -/
theorem Outliers_perm (m : ℚ) (xs ys : List ℚ) (h : ys.Perm xs) :
    Outliers m ys = Outliers m xs ∧
    (Outliers m (Outliers m xs).1).2 = (Outliers m xs).2 := by
  have hsort : ∀ zs : List ℚ, zs.Perm xs → sortFloat64s zs = sortFloat64s xs := by
    intro zs hz
    exact sortFloat64s_eq_of_sorted_perm zs _ (sortFloat64s_sorted xs)
      ((sortFloat64s_perm xs).trans hz.symm)
  constructor
  · simp only [Outliers, hsort ys h]
  · have h1 : (Outliers m xs).1 = sortFloat64s xs := rfl
    rw [h1]
    simp only [Outliers, hsort (sortFloat64s xs) (sortFloat64s_perm xs)]

theorem Outliers_perm_witness :
    Outliers (3 / 2) [400, 20, 9, 9, 8, 7, 7, 7, 4, 4, 3, 3, 2]
      = Outliers (3 / 2) [7, 3, 4, 2, 9, 8, 7, 4, 3, 20, 9, 7, 400] ∧
    (Outliers (3 / 2) (Outliers (3 / 2) [7, 3, 4, 2, 9, 8, 7, 4, 3, 20, 9, 7, 400]).1).2
      = (Outliers (3 / 2) [7, 3, 4, 2, 9, 8, 7, 4, 3, 20, 9, 7, 400]).2 :=
  Outliers_perm (3 / 2) [7, 3, 4, 2, 9, 8, 7, 4, 3, 20, 9, 7, 400]
    [400, 20, 9, 9, 8, 7, 7, 7, 4, 4, 3, 3, 2] (by decide)

/-- C14. In-place sort side effect, with the content of the caller's slice threaded
through every step of the float64 reading: after `Outliers64 m xs` (whether it
returns or panics) the slice is in the order of `sort.Float64s`, which is
ascending `<=` when the sample holds no NaN; it is a permutation of its original
content, with the same length and the same multiplicities; it is exactly what the
sort left behind, nothing else is changed; and no call of `Quantile64` changes the
slice it is given. -/
theorem Outliers_sorts_in_place (m : Float64) (xs : List Float64) :
    ((Outliers64 m xs).1).Sorted (fun a b => Float64.sortLess b a = false) ∧
    ((∀ x ∈ xs, x ≠ .nan) →
      ((Outliers64 m xs).1).Sorted (fun a b => Float64.le a b = true)) ∧
    ((Outliers64 m xs).1).Perm xs ∧
    ((Outliers64 m xs).1).length = xs.length ∧
    (∀ x, ((Outliers64 m xs).1).count x = xs.count x) ∧
    (Outliers64 m xs).1 = (SliceM.sort xs).1 ∧
    (∀ (p : Float64) (ys : List Float64), (Quantile64 p ys).1 = ys) := by
  rw [Outliers64_fst]
  refine ⟨sort64_sorted xs, ?_, sort64_perm xs, (sort64_perm xs).length_eq,
    fun x => (sort64_perm xs).count_eq x, rfl, Quantile64_frame⟩
  intro hnan
  refine List.Pairwise.imp_of_mem ?_ (sort64_sorted xs)
  intro a b ha hb hab
  exact le_of_sortOrder a b (hnan a ((sort64_perm xs).mem_iff.mp ha))
    (hnan b ((sort64_perm xs).mem_iff.mp hb)) hab

theorem Outliers_sorts_in_place_witness :
    ((Outliers64 (.fin (3 / 2)) [.fin 3, .nan, .fin 1, .inf true, .fin 2]).1
      = [.nan, .inf true, .fin 1, .fin 2, .fin 3]) ∧
    ((Outliers64 (.fin (3 / 2)) [.fin 3, .fin 1, .fin 2]).1).Sorted
      (fun a b => Float64.le a b = true) :=
  ⟨by decide!, (Outliers_sorts_in_place (.fin (3 / 2)) [.fin 3, .fin 1, .fin 2]).2.1
    (by decide)⟩

/-- C15. Index-safety range of `Quantile`, over exact arithmetic: for a sample of
length `n ≥ 2` and `j = ⌊p * n + (p + 1) / 3⌋`, the call returns a value if and only
if `1 ≤ j ≤ n - 1`, that is if and only if
`2 / (3n + 1) ≤ p < (3n - 1) / (3n + 1)`. At `p = 1` one has `j = n` and the lookup
`xs[n]` panics; at `p = 0` one has `j = 0` and the lookup `xs[-1]` panics. In
float64 the call still returns if and only if the index `j` that the code computes
satisfies `1 ≤ j ≤ n - 1`. -/
theorem Quantile_index_safety (p : ℚ) (xs : List ℚ) (j : ℤ) (hn : 2 ≤ xs.length)
    (ej : j = ⌊p * (xs.length : ℚ) + (p + 1) / 3⌋) :
    ((∃ v, Quantile p xs = .ok v) ↔ (1 ≤ j ∧ j ≤ (xs.length : ℤ) - 1)) ∧
    ((1 ≤ j ∧ j ≤ (xs.length : ℤ) - 1) ↔
      (2 / (3 * (xs.length : ℚ) + 1) ≤ p ∧
        p < (3 * (xs.length : ℚ) - 1) / (3 * (xs.length : ℚ) + 1))) ∧
    (⌊(1 : ℚ) * (xs.length : ℚ) + (1 + 1) / 3⌋ = (xs.length : ℤ) ∧
      Quantile 1 xs = .error (.indexOutOfRange xs.length xs.length)) ∧
    (⌊(0 : ℚ) * (xs.length : ℚ) + (0 + 1) / 3⌋ = 0 ∧
      Quantile 0 xs = .error (.indexOutOfRange (-1) xs.length)) ∧
    (∀ (q : Float64) (ys : List Float64), 2 ≤ ys.length →
      ((∃ v, (Quantile64 q ys).2 = .ok v) ↔
        (1 ≤ Float64.toInt (Float64.floor
            (q * Float64.ofNat ys.length + (q + .fin 1) / .fin 3)) ∧
          Float64.toInt (Float64.floor
            (q * Float64.ofNat ys.length + (q + .fin 1) / .fin 3))
            ≤ (ys.length : ℤ) - 1))) := by
  have hrange : (1 ≤ j ∧ j ≤ (xs.length : ℤ) - 1) ↔ (1 ≤ j ∧ j < (xs.length : ℤ)) := by
    constructor <;> rintro ⟨a, b⟩ <;> constructor <;> omega
  have f1 : ⌊(1 : ℚ) * (xs.length : ℚ) + (1 + 1) / 3⌋ = (xs.length : ℤ) := by
    rw [Int.floor_eq_iff]; push_cast; constructor <;> linarith
  have f0 : ⌊(0 : ℚ) * (xs.length : ℚ) + (0 + 1) / 3⌋ = 0 := by
    rw [Int.floor_eq_iff]; norm_num
  refine ⟨?_, ?_, ⟨f1, Quantile_panic_at_length 1 xs hn f1⟩, ⟨f0, ?_⟩, ?_⟩
  · rw [hrange, ej]
    exact Quantile_ok_iff p xs hn
  · rw [hrange, ej]
    exact floor_range_iff p xs.length
  · have h := Quantile_panic_low 0 xs hn (by rw [f0]; norm_num)
    rw [f0] at h
    exact h
  · intro q ys hys
    rw [Quantile64_ok_iff q ys hys]
    constructor <;> rintro ⟨a, b⟩ <;> constructor <;> omega

theorem Quantile_index_safety_witness :
    ((∃ v, Quantile (1 / 2) [1, 2, 3, 4] = .ok v) ↔
      ((1 : ℤ) ≤ 2 ∧ (2 : ℤ) ≤ (([1, 2, 3, 4] : List ℚ).length : ℤ) - 1)) ∧
    (((1 : ℤ) ≤ 2 ∧ (2 : ℤ) ≤ (([1, 2, 3, 4] : List ℚ).length : ℤ) - 1) ↔
      (2 / (3 * (([1, 2, 3, 4] : List ℚ).length : ℚ) + 1) ≤ (1 / 2 : ℚ) ∧
        (1 / 2 : ℚ) < (3 * (([1, 2, 3, 4] : List ℚ).length : ℚ) - 1) /
          (3 * (([1, 2, 3, 4] : List ℚ).length : ℚ) + 1))) ∧
    (⌊(1 : ℚ) * (([1, 2, 3, 4] : List ℚ).length : ℚ) + (1 + 1) / 3⌋
        = (([1, 2, 3, 4] : List ℚ).length : ℤ) ∧
      Quantile 1 [1, 2, 3, 4] = .error (.indexOutOfRange ([1, 2, 3, (4 : ℚ)]).length
        ([1, 2, 3, (4 : ℚ)]).length)) ∧
    (⌊(0 : ℚ) * (([1, 2, 3, 4] : List ℚ).length : ℚ) + (0 + 1) / 3⌋ = 0 ∧
      Quantile 0 [1, 2, 3, 4] = .error (.indexOutOfRange (-1) ([1, 2, 3, (4 : ℚ)]).length)) ∧
    (∀ (q : Float64) (ys : List Float64), 2 ≤ ys.length →
      ((∃ v, (Quantile64 q ys).2 = .ok v) ↔
        (1 ≤ Float64.toInt (Float64.floor
            (q * Float64.ofNat ys.length + (q + .fin 1) / .fin 3)) ∧
          Float64.toInt (Float64.floor
            (q * Float64.ofNat ys.length + (q + .fin 1) / .fin 3))
            ≤ (ys.length : ℤ) - 1))) :=
  Quantile_index_safety (1 / 2) [1, 2, 3, 4] 2 (by decide) (by decide!)

/-- Counterexample to C15 as stated: in float64 the range of probabilities is not
the range of calls that return. With `n = 13` the float64 nearest to `0.95` lies
inside `2 / (3n + 1) ≤ p < (3n - 1) / (3n + 1)`, yet `p * n + (p + 1) / 3` rounds
up to `13` and the lookup `xs[13]` panics; with `n = 2` the float64 nearest to `2/7`
lies below `2 / (3n + 1)`, yet the call returns `1`. -/
theorem Quantile_index_safety_fails :
    (∃ q : ℚ, Float64.ofRat (19 / 20) = .fin q ∧
      2 / (3 * ((13 : ℕ) : ℚ) + 1) ≤ q ∧ q < (3 * ((13 : ℕ) : ℚ) - 1) / (3 * ((13 : ℕ) : ℚ) + 1) ∧
      (Quantile64 (.fin q) [.fin 1, .fin 2, .fin 3, .fin 4, .fin 5, .fin 6, .fin 7, .fin 8,
        .fin 9, .fin 10, .fin 11, .fin 12, .fin 13]).2 = .error (.indexOutOfRange 13 13)) ∧
    (∃ q : ℚ, Float64.ofRat (2 / 7) = .fin q ∧ ¬ (2 / (3 * ((2 : ℕ) : ℚ) + 1) ≤ q) ∧
      (Quantile64 (.fin q) [.fin 1, .fin 2]).2 = .ok (.fin 1)) :=
  ⟨⟨4278419646001971 / 4503599627370496, by decide!, by decide!, by decide!, by decide!⟩,
    ⟨2573485501354569 / 9007199254740992, by decide!, by decide!, by decide!⟩⟩

/-- C16. `Outliers m xs` returns a result if and only if the sample has length `1`
or at least `3`: it panics on the empty sample (precondition panic) and on every
two-element sample, where `Quantile 0.25` computes `j = 0` and reads index `-1`
(and `Quantile 0.75` computes `j = 2` and reads index `2`). -/
theorem Outliers_returns_iff (m : ℚ) (xs : List ℚ) :
    ((∃ r, (Outliers m xs).2 = .ok r) ↔ (xs.length = 1 ∨ 3 ≤ xs.length)) ∧
    (Outliers m []).2 = .error .emptyArgument ∧
    (∀ x y : ℚ, (Outliers m [x, y]).2 = .error (.indexOutOfRange (-1) 2) ∧
      Quantile (3 / 4) (sortFloat64s [x, y]) = .error (.indexOutOfRange 2 2)) := by
  have hnil : (Outliers m []).2 = .error .emptyArgument := by
    simp [Outliers, sortFloat64s, Quantile, bind, Except.bind]
  have hpair : ∀ zs : List ℚ, zs.length = 2 →
      (Outliers m zs).2 = .error (.indexOutOfRange (-1) 2) ∧
      Quantile (3 / 4) (sortFloat64s zs) = .error (.indexOutOfRange 2 2) := by
    intro zs hz
    have hl : (sortFloat64s zs).length = 2 := by
      rw [(sortFloat64s_perm zs).length_eq, hz]
    have f1 : ⌊(1 / 4 : ℚ) * ((sortFloat64s zs).length : ℚ) + (1 / 4 + 1) / 3⌋ = 0 := by
      rw [hl, Int.floor_eq_iff]; norm_num
    have f3 : ⌊(3 / 4 : ℚ) * ((sortFloat64s zs).length : ℚ) + (3 / 4 + 1) / 3⌋
        = ((sortFloat64s zs).length : ℤ) := by
      rw [hl, Int.floor_eq_iff]; norm_num
    have hq1 := Quantile_panic_low (1 / 4) (sortFloat64s zs) (by omega) (by rw [f1]; norm_num)
    have hq3 := Quantile_panic_at_length (3 / 4) (sortFloat64s zs) (by omega) f3
    rw [f1, hl] at hq1
    rw [hl] at hq3
    refine ⟨?_, hq3⟩
    simp only [Outliers, hq1, bind, Except.bind]
    rfl
  refine ⟨?_, hnil, fun x y => hpair [x, y] rfl⟩
  constructor
  · rintro ⟨r, hr⟩
    by_contra hcon
    have hlen : xs.length = 0 ∨ xs.length = 2 := by omega
    rcases hlen with h0 | h2
    · rw [List.length_eq_zero.mp h0, hnil] at hr
      exact Except.noConfusion hr
    · rw [(hpair xs h2).1] at hr
      exact Except.noConfusion hr
  · intro hlen
    obtain ⟨q1, q3, -, -, -, hr⟩ := Outliers_returns m xs hlen
    exact ⟨_, hr⟩

/-- C17. Monotonicity of `Quantile` inside its safe range: on an ascending sample
of length `n ≥ 2`, for `p1 ≤ p2` with `2 / (3n + 1) ≤ p1` and
`p2 < (3n - 1) / (3n + 1)`, both calls return and
`Quantile p1 xs ≤ Quantile p2 xs`; consequently on an ascending sample of length at
least `3` the lower quartile, the median and the upper quartile are returned in
that order and the interquartile range is non-negative. -/
theorem Quantile_mono_safe_range (xs : List ℚ) (hs : xs.Sorted (· ≤ ·)) :
    (∀ p1 p2 : ℚ, 2 ≤ xs.length → p1 ≤ p2 → 2 / (3 * (xs.length : ℚ) + 1) ≤ p1 →
      p2 < (3 * (xs.length : ℚ) - 1) / (3 * (xs.length : ℚ) + 1) →
      ∃ v1 v2, Quantile p1 xs = .ok v1 ∧ Quantile p2 xs = .ok v2 ∧ v1 ≤ v2) ∧
    (3 ≤ xs.length →
      ∃ q1 q2 q3, Quantile (1 / 4) xs = .ok q1 ∧ Quantile (1 / 2) xs = .ok q2 ∧
        Quantile (3 / 4) xs = .ok q3 ∧ q1 ≤ q2 ∧ q2 ≤ q3 ∧ 0 ≤ q3 - q1) := by
  have main : ∀ p1 p2 : ℚ, 2 ≤ xs.length → p1 ≤ p2 → 2 / (3 * (xs.length : ℚ) + 1) ≤ p1 →
      p2 < (3 * (xs.length : ℚ) - 1) / (3 * (xs.length : ℚ) + 1) →
      ∃ v1 v2, Quantile p1 xs = .ok v1 ∧ Quantile p2 xs = .ok v2 ∧ v1 ≤ v2 := by
    intro p1 p2 hn hp hlo hhi
    have hpos : (0 : ℚ) < 3 * (xs.length : ℚ) + 1 := by positivity
    have h1 : 1 ≤ ⌊p1 * (xs.length : ℚ) + (p1 + 1) / 3⌋ := by
      rw [Int.le_floor]
      rw [div_le_iff₀ hpos] at hlo
      push_cast
      linarith
    have h2 : ⌊p2 * (xs.length : ℚ) + (p2 + 1) / 3⌋ < (xs.length : ℤ) := by
      rw [Int.floor_lt]
      rw [lt_div_iff₀ hpos] at hhi
      push_cast
      linarith
    exact Quantile_mono_of_range p1 p2 xs hs hn hp h1 h2
  refine ⟨main, ?_⟩
  intro h3
  have hq : (3 : ℚ) ≤ (xs.length : ℚ) := by exact_mod_cast h3
  have hpos : (0 : ℚ) < 3 * (xs.length : ℚ) + 1 := by positivity
  have hlo : 2 / (3 * (xs.length : ℚ) + 1) ≤ 1 / 4 := by
    rw [div_le_iff₀ hpos]; linarith
  have hhi : (3 / 4 : ℚ) < (3 * (xs.length : ℚ) - 1) / (3 * (xs.length : ℚ) + 1) := by
    rw [lt_div_iff₀ hpos]; linarith
  obtain ⟨q1, q2, e1, e2, h12⟩ := main (1 / 4) (1 / 2) (by omega) (by norm_num) hlo
    (lt_trans (by norm_num) hhi)
  obtain ⟨q2', q3, e2', e3, h23⟩ := main (1 / 2) (3 / 4) (by omega) (by norm_num)
    (le_trans hlo (by norm_num)) hhi
  have e22 : q2' = q2 := Except.ok.inj (e2'.symm.trans e2)
  rw [e22] at h23
  exact ⟨q1, q2, q3, e1, e2, e3, h12, h23, sub_nonneg.mpr (le_trans h12 h23)⟩

theorem Quantile_mono_safe_range_witness :
    (∃ v1 v2, Quantile (1 / 3) [1, 2, 4] = .ok v1 ∧ Quantile (2 / 3) [1, 2, 4] = .ok v2 ∧
      v1 ≤ v2) ∧
    (∃ q1 q2 q3, Quantile (1 / 4) [1, 2, 4] = .ok q1 ∧ Quantile (1 / 2) [1, 2, 4] = .ok q2 ∧
      Quantile (3 / 4) [1, 2, 4] = .ok q3 ∧ q1 ≤ q2 ∧ q2 ≤ q3 ∧ 0 ≤ q3 - q1) :=
  ⟨(Quantile_mono_safe_range [1, 2, 4] (by decide!)).1 (1 / 3) (2 / 3) (by decide)
      (by decide!) (by decide!) (by decide!),
    (Quantile_mono_safe_range [1, 2, 4] (by decide!)).2 (by decide)⟩

/-- C18. `Quantile 0.5` is the conventional sample median: on a sample of odd
length `2k + 1` it returns the middle element `xs[k]`, on a sample of even length
`2k ≥ 2` it returns the mean `(xs[k-1] + xs[k]) / 2` of the two middle elements. -/
theorem Quantile_median (xs : List ℚ) (k : ℕ) :
    (xs.length = 2 * k + 1 → ∃ a, xs[k]? = some a ∧ Quantile (1 / 2) xs = .ok a) ∧
    (xs.length = 2 * k → 1 ≤ k →
      ∃ a b, xs[k - 1]? = some a ∧ xs[k]? = some b ∧
        Quantile (1 / 2) xs = .ok ((a + b) / 2)) := by
  constructor
  · intro hlen
    rcases Nat.eq_zero_or_pos k with hk | hk
    · subst hk
      obtain ⟨x, rfl⟩ := List.length_eq_one.mp hlen
      exact ⟨x, rfl, by simp [Quantile, index]⟩
    · have hf : ⌊(1 / 2 : ℚ) * (xs.length : ℚ) + (1 / 2 + 1) / 3⌋ = (k : ℤ) + 1 := by
        rw [hlen, Int.floor_eq_iff]; push_cast; constructor <;> linarith
      obtain ⟨a, b, ha, -, hq⟩ := Quantile_general (1 / 2) xs (by omega)
        (by rw [hf]; omega) (by rw [hf, hlen]; push_cast; omega)
      rw [hf] at ha hq
      have hidx : ((k : ℤ) + 1 - 1).toNat = k := by omega
      rw [hidx] at ha
      refine ⟨a, ha, ?_⟩
      rw [hq, hlen]
      congr 1
      push_cast
      ring
  · intro hlen hk
    have hf : ⌊(1 / 2 : ℚ) * (xs.length : ℚ) + (1 / 2 + 1) / 3⌋ = (k : ℤ) := by
      rw [hlen, Int.floor_eq_iff]; push_cast; constructor <;> linarith
    obtain ⟨a, b, ha, hb, hq⟩ := Quantile_general (1 / 2) xs (by omega)
      (by rw [hf]; omega) (by rw [hf, hlen]; push_cast; omega)
    rw [hf] at ha hb hq
    have hidx : ((k : ℤ) - 1).toNat = k - 1 := by omega
    have hidx2 : ((k : ℤ)).toNat = k := by omega
    rw [hidx] at ha
    rw [hidx2] at hb
    refine ⟨a, b, ha, hb, ?_⟩
    rw [hq, hlen]
    congr 1
    push_cast
    ring

theorem Quantile_median_witness :
    (∃ a, ([1, 5, 9] : List ℚ)[1]? = some a ∧ Quantile (1 / 2) [1, 5, 9] = .ok a) ∧
    (∃ a b, ([1, 5, 9, 10] : List ℚ)[2 - 1]? = some a ∧
      ([1, 5, 9, 10] : List ℚ)[2]? = some b ∧
      Quantile (1 / 2) [1, 5, 9, 10] = .ok ((a + b) / 2)) :=
  ⟨(Quantile_median [1, 5, 9] 1).1 rfl, (Quantile_median [1, 5, 9, 10] 2).2 rfl (by decide)⟩

/-- C19. `Quantile` stays within the data, over exact arithmetic: on an ascending
sample of length `n ≥ 2`, when `j = ⌊p * n + (p + 1) / 3⌋` satisfies
`1 ≤ j ≤ n - 1`, the returned value is the convex combination
`(1 - γ) * xs[j-1] + γ * xs[j]` with `0 ≤ γ < 1`, so
`xs[j-1] ≤ Quantile p xs ≤ xs[j]` and `xs[0] ≤ Quantile p xs ≤ xs[n-1]`. -/
theorem Quantile_within_data (p : ℚ) (xs : List ℚ) (j : ℤ) (γ : ℚ)
    (hs : xs.Sorted (· ≤ ·)) (hn : 2 ≤ xs.length)
    (ej : j = ⌊p * (xs.length : ℚ) + (p + 1) / 3⌋)
    (eg : γ = p * (xs.length : ℚ) + (p + 1) / 3 - (j : ℚ))
    (h1 : 1 ≤ j) (h2 : j ≤ (xs.length : ℤ) - 1) :
    ∃ a b v lo hi, xs[(j - 1).toNat]? = some a ∧ xs[j.toNat]? = some b ∧
      xs[0]? = some lo ∧ xs[xs.length - 1]? = some hi ∧
      Quantile p xs = .ok v ∧ v = (1 - γ) * a + γ * b ∧ 0 ≤ γ ∧ γ < 1 ∧
      a ≤ v ∧ v ≤ b ∧ lo ≤ v ∧ v ≤ hi := by
  subst ej eg
  have h2' : ⌊p * (xs.length : ℚ) + (p + 1) / 3⌋ < (xs.length : ℤ) := by omega
  obtain ⟨a, b, ha, hb, hq⟩ := Quantile_general p xs hn h1 h2'
  obtain ⟨a', b', v, ha', hb', hv, hav, hvb⟩ := Quantile_between p xs hs hn h1 h2'
  have ea : a' = a := Option.some.inj (ha'.symm.trans ha)
  have eb : b' = b := Option.some.inj (hb'.symm.trans hb)
  have ev : v = _ := Except.ok.inj (hv.symm.trans hq)
  rw [ea] at hav
  rw [eb] at hvb
  have hlo : xs[0]? = some xs[0] := List.getElem?_eq_getElem (by omega)
  have hhi : xs[xs.length - 1]? = some xs[xs.length - 1] :=
    List.getElem?_eq_getElem (by omega)
  have hloa : xs[0] ≤ a := sorted_lookup_le xs hs _ _ _ a (Nat.zero_le _) hlo ha
  have hbhi : b ≤ xs[xs.length - 1] := sorted_lookup_le xs hs _ _ b _ (by omega) hb hhi
  refine ⟨a, b, v, xs[0], xs[xs.length - 1], ha, hb, hlo, hhi, hv, ev, ?_, ?_, hav, hvb,
    le_trans hloa hav, le_trans hvb hbhi⟩
  · exact sub_nonneg.mpr (Int.floor_le _)
  · have := Int.lt_floor_add_one (p * (xs.length : ℚ) + (p + 1) / 3)
    linarith

theorem Quantile_within_data_witness :
    ∃ a b v lo hi, ([1, 2, 4, 8] : List ℚ)[((2 : ℤ) - 1).toNat]? = some a ∧
      ([1, 2, 4, 8] : List ℚ)[(2 : ℤ).toNat]? = some b ∧
      ([1, 2, 4, 8] : List ℚ)[0]? = some lo ∧
      ([1, 2, 4, 8] : List ℚ)[([1, 2, 4, 8] : List ℚ).length - 1]? = some hi ∧
      Quantile (1 / 2) [1, 2, 4, 8] = .ok v ∧
      v = (1 - (1 / 2 : ℚ)) * a + (1 / 2 : ℚ) * b ∧ 0 ≤ (1 / 2 : ℚ) ∧ (1 / 2 : ℚ) < 1 ∧
      a ≤ v ∧ v ≤ b ∧ lo ≤ v ∧ v ≤ hi :=
  Quantile_within_data (1 / 2) [1, 2, 4, 8] 2 (1 / 2) (by decide!) (by decide)
    (by decide!) (by decide!) (by decide) (by decide)

/-- C20. The multiplier tunes strictness monotonically, over exact arithmetic: on a
sample of length `1` or at least `3`, for `m1 ≤ m2` both calls return, the fences
widen (`lowFence m2 ≤ lowFence m1`, `highFence m1 ≤ highFence m2`) and the outliers
for `m2` form a sublist of the outliers for `m1`; and for `m ≥ 0` one has
`lowFence ≤ lowerQuartile ≤ upperQuartile ≤ highFence`, so no sample value lying
between the quartiles is reported as an outlier. -/
theorem Outliers_multiplier_mono (m1 m2 m : ℚ) (xs : List ℚ)
    (hlen : xs.length = 1 ∨ 3 ≤ xs.length) (h12 : m1 ≤ m2) (hm : 0 ≤ m) :
    (∃ o1 lo1 hi1 o2 lo2 hi2, (Outliers m1 xs).2 = .ok (o1, lo1, hi1) ∧
      (Outliers m2 xs).2 = .ok (o2, lo2, hi2) ∧
      lo2 ≤ lo1 ∧ hi1 ≤ hi2 ∧ o2.Sublist o1) ∧
    (∃ o lo hi q1 q3, (Outliers m xs).2 = .ok (o, lo, hi) ∧
      Quantile (1 / 4) (sortFloat64s xs) = .ok q1 ∧
      Quantile (3 / 4) (sortFloat64s xs) = .ok q3 ∧
      lo ≤ q1 ∧ q1 ≤ q3 ∧ q3 ≤ hi ∧ ∀ x ∈ xs, q1 ≤ x → x ≤ q3 → x ∉ o) := by
  obtain ⟨q1, q3, e1, e3, hq, hr1⟩ := Outliers_returns m1 xs hlen
  obtain ⟨q1', q3', e1', e3', -, hr2⟩ := Outliers_returns m2 xs hlen
  obtain ⟨q1'', q3'', e1'', e3'', -, hr⟩ := Outliers_returns m xs hlen
  have a1 : q1' = q1 := Except.ok.inj (e1'.symm.trans e1)
  have a3 : q3' = q3 := Except.ok.inj (e3'.symm.trans e3)
  have b1 : q1'' = q1 := Except.ok.inj (e1''.symm.trans e1)
  have b3 : q3'' = q3 := Except.ok.inj (e3''.symm.trans e3)
  rw [a1, a3] at hr2
  rw [b1, b3] at hr
  have hiqr : 0 ≤ q3 - q1 := sub_nonneg.mpr hq
  have hlo : q1 - m2 * (q3 - q1) ≤ q1 - m1 * (q3 - q1) := by
    nlinarith [mul_nonneg (sub_nonneg.mpr h12) hiqr]
  have hhi : q3 + m1 * (q3 - q1) ≤ q3 + m2 * (q3 - q1) := by
    nlinarith [mul_nonneg (sub_nonneg.mpr h12) hiqr]
  constructor
  · refine ⟨_, _, _, _, _, _, hr1, hr2, hlo, hhi, ?_⟩
    rw [scanOutliers_eq_filter, scanOutliers_eq_filter]
    apply List.monotone_filter_right
    intro x hx
    simp only [decide_eq_true_eq] at hx ⊢
    rcases hx with hx | hx
    · exact Or.inl (lt_of_lt_of_le hx hlo)
    · exact Or.inr (lt_of_le_of_lt hhi hx)
  · have hmq : 0 ≤ m * (q3 - q1) := mul_nonneg hm hiqr
    refine ⟨_, _, _, q1, q3, hr, e1, e3, by linarith, hq, by linarith, ?_⟩
    intro x _ hx1 hx3 hmem
    rw [scanOutliers_eq_filter, List.mem_filter] at hmem
    have hcond := hmem.2
    simp only [decide_eq_true_eq] at hcond
    rcases hcond with hc | hc
    · linarith
    · linarith

theorem Outliers_multiplier_mono_witness :
    (∃ o1 lo1 hi1 o2 lo2 hi2,
      (Outliers (3 / 2) [7, 3, 4, 2, 9, 8, 7, 4, 3, 20, 9, 7, 400]).2 = .ok (o1, lo1, hi1) ∧
      (Outliers 3 [7, 3, 4, 2, 9, 8, 7, 4, 3, 20, 9, 7, 400]).2 = .ok (o2, lo2, hi2) ∧
      lo2 ≤ lo1 ∧ hi1 ≤ hi2 ∧ o2.Sublist o1) ∧
    (∃ o lo hi q1 q3,
      (Outliers (3 / 2) [7, 3, 4, 2, 9, 8, 7, 4, 3, 20, 9, 7, 400]).2 = .ok (o, lo, hi) ∧
      Quantile (1 / 4) (sortFloat64s [7, 3, 4, 2, 9, 8, 7, 4, 3, 20, 9, 7, 400]) = .ok q1 ∧
      Quantile (3 / 4) (sortFloat64s [7, 3, 4, 2, 9, 8, 7, 4, 3, 20, 9, 7, 400]) = .ok q3 ∧
      lo ≤ q1 ∧ q1 ≤ q3 ∧ q3 ≤ hi ∧
      ∀ x ∈ ([7, 3, 4, 2, 9, 8, 7, 4, 3, 20, 9, 7, 400] : List ℚ), q1 ≤ x → x ≤ q3 → x ∉ o) :=
  Outliers_multiplier_mono (3 / 2) 3 (3 / 2) [7, 3, 4, 2, 9, 8, 7, 4, 3, 20, 9, 7, 400]
    (by decide) (by decide!) (by decide!)

/-- Counterexample to C19 as stated: in float64, on the ascending sample
`[0.9, 0.9, 0.9]` the lower quartile is computed from `j = 1`, inside the safe
range, and comes out as `0.9000000000000001`, above `xs[j]` and above the maximum
of the sample. -/
theorem Quantile_within_data_fails :
    ∃ j v hi, j = Float64.toInt (Float64.floor
        (Float64.fin (1 / 4) * Float64.ofNat 3 + (Float64.fin (1 / 4) + .fin 1) / .fin 3)) ∧
      1 ≤ j ∧ j ≤ 3 - 1 ∧
      (Quantile64 (.fin (1 / 4)) [.ofRat (9 / 10), .ofRat (9 / 10), .ofRat (9 / 10)]).2
        = .ok v ∧
      [Float64.ofRat (9 / 10), .ofRat (9 / 10), .ofRat (9 / 10)][j.toNat]? = some hi ∧
      [Float64.ofRat (9 / 10), .ofRat (9 / 10), .ofRat (9 / 10)][3 - 1]? = some hi ∧
      ¬ (Float64.le v hi = true) :=
  ⟨1, .fin (4053239664633447 / 4503599627370496), .ofRat (9 / 10), by decide!, by decide,
    by decide, by decide!, by decide!, by decide!, by decide!⟩

/-- Counterexample to C20 as stated: in float64, on the sample `[0.9, 0.9, 0.9]` the
computed lower quartile `0.9000000000000001` exceeds the upper quartile `0.9`. With
the multiplier `1.5 ≥ 0` the low fence lies above the lower quartile and above the
high fence, every value is reported as an outlier, and raising the multiplier from
`0` to `1.5` raises the low fence instead of lowering it. -/
theorem Outliers_multiplier_mono_fails :
    ∃ o lo hi q1 q3 o0 lo0 hi0,
      (Outliers64 (.fin (3 / 2)) [.ofRat (9 / 10), .ofRat (9 / 10), .ofRat (9 / 10)]).2
        = .ok (o, lo, hi) ∧
      (Outliers64 (.fin 0) [.ofRat (9 / 10), .ofRat (9 / 10), .ofRat (9 / 10)]).2
        = .ok (o0, lo0, hi0) ∧
      (Quantile64 (.fin (1 / 4)) [.ofRat (9 / 10), .ofRat (9 / 10), .ofRat (9 / 10)]).2
        = .ok q1 ∧
      (Quantile64 (.fin (3 / 4)) [.ofRat (9 / 10), .ofRat (9 / 10), .ofRat (9 / 10)]).2
        = .ok q3 ∧
      ¬ (Float64.le lo q1 = true) ∧ ¬ (Float64.le q1 q3 = true) ∧
      ¬ (Float64.le lo hi = true) ∧ ¬ (Float64.le lo lo0 = true) ∧
      o = [.ofRat (9 / 10), .ofRat (9 / 10), .ofRat (9 / 10)] :=
  ⟨[.ofRat (9 / 10), .ofRat (9 / 10), .ofRat (9 / 10)],
    .fin (506654958079181 / 562949953421312), .fin (2026619832316723 / 2251799813685248),
    .fin (4053239664633447 / 4503599627370496), .ofRat (9 / 10),
    [.ofRat (9 / 10), .ofRat (9 / 10), .ofRat (9 / 10)],
    .fin (4053239664633447 / 4503599627370496), .ofRat (9 / 10),
    by decide!, by decide!, by decide!, by decide!, by decide!, by decide!, by decide!,
    by decide!, rfl⟩

end Tukey
